import Mathlib

/-!
Verification of the permacache two-tier content-addressable cache (src/index.js).

The volatile-tier state of a `Cache` instance is embedded as a record of the
instance fields (`_fileLimit`, `_totalLimit`, `_pathLimit`, `_longterm`,
`_pathIndex`, `_current`, `_caches`, `_paths`).  The JS object maps `_caches`
and `_paths` are embedded as insertion-ordered association lists (JS string-keyed
objects enumerate in insertion order, and every key used here is a non-numeric
string).  Byte buffers are lists of naturals, timestamps are naturals.

External collaborators (the sha256 digest, the durable backend reads, and the
pluggable score function, which the source keeps in the settable `_scoreFunc`
field) are ambient parameters in an `Env` record: each is a pure function, which
is exactly what the source assumes of them.  Fallible paths return `Except`;
the `TypeError` reachable inside `_freeSpaceInRAM` when `sorted.pop()` runs on
an empty array is the `.error` case, carrying the instance state at the throw.
-/

namespace Permacache

abbrev Hash := String
abbrev Path := String
abbrev Payload := List Nat

/-- One value of the `_caches` map: `[time, data]` in the source. -/
structure CacheEntry where
  time : Nat
  data : Payload
deriving Repr, DecidableEq

/-- One value of the `_paths` map: `[index, hash]` in the source. -/
structure PathEntry where
  idx : Nat
  hash : Hash
deriving Repr, DecidableEq

/-- The per-instance fields of the `Cache` class that the claims concern. -/
structure CacheState where
  fileLimit : Nat
  totalLimit : Nat
  pathLimit : Nat
  longterm : Bool
  pathIndex : Nat
  current : Nat
  caches : List (Hash × CacheEntry)
  paths : List (Path × PathEntry)
deriving Repr, DecidableEq

/-- Ambient pure collaborators: the sha256 hex digest, the durable backend's
`readCache`/`readPath` (`none` embeds a rejected read), and the score function
held in `_scoreFunc`. -/
structure Env where
  hashFn : Payload → Hash
  dcache : Hash → Option Payload
  dpath : Path → Option Hash
  score : Nat → Nat → Nat

/-- Default `_scoreFunc` from the constructor: `age*Math.ceil(size/10000)`;
for naturals `Math.ceil(size/10000)` is `(size + 9999) / 10000`. -/
def defaultScore (age size : Nat) : Nat :=
  age * ((size + 9999) / 10000)

/-- JS object property read `m[k]` (first, and only, binding of the key). -/
def alookup {β : Type} : List (String × β) → String → Option β
  | [], _ => none
  | p :: ps, k => if p.1 = k then some p.2 else alookup ps k

/-- JS `delete m[k]` (removes the binding of `k`, keeping property order). -/
def aerase {β : Type} : List (String × β) → String → List (String × β)
  | [], _ => []
  | p :: ps, k => if p.1 = k then ps else p :: aerase ps k

/-- In-place `this._caches[hash][0] = now` (timestamp refresh). -/
def setTime (l : List (Hash × CacheEntry)) (h : Hash) (t : Nat) :
    List (Hash × CacheEntry) :=
  l.map fun p => if p.1 = h then (p.1, { p.2 with time := t }) else p

/-- In-place `this._paths[path][1] = hash` (repoint an existing path). -/
def setPathHash (l : List (Path × PathEntry)) (p : Path) (h : Hash) :
    List (Path × PathEntry) :=
  l.map fun q => if q.1 = p then (q.1, { q.2 with hash := h }) else q

/-- The `for (let pathIndex in this._paths)` removal loop in `_storePathInRAM`:
delete the first (in fact only) entry whose stored index is `i`, then stop. -/
def removeIdx : List (Path × PathEntry) → Nat → List (Path × PathEntry)
  | [], _ => []
  | q :: qs, i => if q.2.idx = i then qs else q :: removeIdx qs i

/-- Total size of the resident payloads (what `_current` is meant to track). -/
def sumSizes (l : List (Hash × CacheEntry)) : Nat :=
  (l.map fun p => p.2.data.length).sum

/-- `_storePathInRAM(path, hash)` (src/index.js lines 220-243). -/
def storePathInRAM (st : CacheState) (path : Path) (hash : Hash) : CacheState :=
  match alookup st.paths path with
  | some _ => { st with paths := setPathHash st.paths path hash }
  | none =>
    let st1 := { st with
                 pathIndex := st.pathIndex + 1
                 paths := st.paths ++ [(path, ⟨st.pathIndex, hash⟩)] }
    if st1.pathIndex > st.pathLimit then
      { st1 with paths := removeIdx st1.paths (st1.pathIndex - st.pathLimit - 1) }
    else st1

/-- The scored pair pushed for one resident entry in `_freeSpaceInRAM`:
`[this._scoreFunc(now - caches[hash][0], caches[hash][1].length), hash]`. -/
def toScore (sc : Nat → Nat → Nat) (now : Nat) (p : Hash × CacheEntry) :
    Nat × Hash :=
  (sc (now - p.2.time) p.2.data.length, p.1)

/-- Stable insertion into an ascending-by-score list, placing the new element
after existing equal scores, as `Array.prototype.sort` (stable) does. -/
def insertAsc (x : Nat × Hash) : List (Nat × Hash) → List (Nat × Hash)
  | [] => [x]
  | y :: ys => if y.1 ≤ x.1 then y :: insertAsc x ys else x :: y :: ys

/-- `sorted.sort((a, b) => a[0] - b[0])`: stable ascending sort by score. -/
def sortAsc (l : List (Nat × Hash)) : List (Nat × Hash) :=
  l.foldl (fun acc x => insertAsc x acc) []

/-- The `while (this._current + size > this._totalLimit)` loop of
`_freeSpaceInRAM`, with the pending `sorted` stack already reversed so that
`sorted.pop()` (remove highest remaining score) is head access.  `.error` is
the `TypeError` thrown when `pop()` yields `undefined` (empty stack) or the
popped hash is no longer a key of `_caches`; it carries `(current, caches)` as
they stand at the throw. -/
def evictLoop (size limit : Nat) :
    List (Nat × Hash) → Nat → List (Hash × CacheEntry) →
    Except (Nat × List (Hash × CacheEntry)) (Nat × List (Hash × CacheEntry))
  | stack, current, caches =>
    if current + size ≤ limit then .ok (current, caches)
    else
      match stack with
      | [] => .error (current, caches)
      | (_, h) :: rest =>
        match alookup caches h with
        | none => .error (current, caches)
        | some e => evictLoop size limit rest (current - e.data.length) (aerase caches h)

/-- `_freeSpaceInRAM(size, now)` (src/index.js lines 251-267). -/
def freeSpaceInRAM (sc : Nat → Nat → Nat) (st : CacheState) (size now : Nat) :
    Except CacheState CacheState :=
  if st.current + size > st.totalLimit then
    let sorted := sortAsc (st.caches.map (toScore sc now))
    match evictLoop size st.totalLimit sorted.reverse st.current st.caches with
    | .ok (c, cs) => .ok { st with current := c, caches := cs }
    | .error (c, cs) => .error { st with current := c, caches := cs }
  else .ok st

/-- `_storeCacheInRAM(hash, data)` (src/index.js lines 276-299); the returned
`Bool` is the source's "is it in RAM" result.  `.error` propagates the
`_freeSpaceInRAM` throw with the state at the throw. -/
def storeCacheInRAM (sc : Nat → Nat → Nat) (st : CacheState) (hash : Hash)
    (data : Payload) (now : Nat) : Except CacheState (Bool × CacheState) :=
  match alookup st.caches hash with
  | some _ => .ok (true, { st with caches := setTime st.caches hash now })
  | none =>
    if data.length > st.fileLimit then .ok (false, st)
    else
      match freeSpaceInRAM sc st data.length now with
      | .error stc => .error stc
      | .ok st1 => .ok (true, { st1 with
          current := st1.current + data.length
          caches := st1.caches ++ [(hash, ⟨now, data⟩)] })

/-- A durable write scheduled (pushed onto `waiting`) during `put`. -/
inductive DurableWrite where
  | writePath (p : Path) (h : Hash)
  | writeCache (h : Hash) (d : Payload)
deriving Repr, DecidableEq

/-- Failure modes of `put`: the oversized synchronous reject, the eviction-loop
`TypeError`, and a rejected durable write surfaced through `Promise.all`. -/
inductive PutErr where
  | oversized
  | crash
  | durableWriteFailure
deriving Repr, DecidableEq

/-- What a successful `put` executor run produces: the hex hash, the state after
the RAM mutations, the scheduled durable writes (in push order), the RAM
admission result, and whether the promise resolved immediately
(`!waitForLongTermIfPutInRAM && inRAM`, line 343). -/
structure PutOk where
  hash : Hash
  st : CacheState
  scheduled : List DurableWrite
  inRAM : Bool
  immediate : Bool
deriving Repr, DecidableEq

/-- The `for (let path of paths)` loop of `put` (lines 325-330): store each path
whose current mapping is absent or differs, scheduling a durable path write
when long term is configured. -/
def putPaths (st : CacheState) (hash : Hash) :
    List Path → CacheState × List DurableWrite
  | [] => (st, [])
  | p :: ps =>
    let step :=
      match alookup st.paths p with
      | none => (storePathInRAM st p hash,
          if st.longterm then [DurableWrite.writePath p hash] else [])
      | some pe =>
          if pe.hash ≠ hash then
            (storePathInRAM st p hash,
              if st.longterm then [DurableWrite.writePath p hash] else [])
          else (st, [])
    let rest := putPaths step.1 hash ps
    (rest.1, step.2 ++ rest.2)

/-- `put(data, paths, waitForLongTermIfPutInRAM)` (src/index.js lines 311-346),
up to promise settlement.  Errors carry the instance state at the reject/throw
(`.oversized` rejects before any mutation; `.crash` is the eviction-loop
`TypeError`, thrown after the path stores already ran). -/
def put (env : Env) (st : CacheState) (data : Payload) (paths : List Path)
    (wait : Bool) (now : Nat) : Except (PutErr × CacheState) PutOk :=
  if st.longterm = false ∧ data.length > st.fileLimit then
    .error (.oversized, st)
  else
    let hash := env.hashFn data
    let pp := putPaths st hash paths
    let st1 := pp.1
    let w2 :=
      if st1.longterm then
        match alookup st1.caches hash with
        | none => [DurableWrite.writeCache hash data]
        | some e => if e.data = data then [DurableWrite.writeCache hash data] else []
      else []
    match storeCacheInRAM env.score st1 hash data now with
    | .error stc => .error (.crash, stc)
    | .ok (inRAM, st2) =>
        .ok ⟨hash, st2, pp.2 ++ w2, inRAM, !wait && inRAM⟩

/-- Promise settlement of `put` (lines 343-344): resolve immediately with the
hash when `!wait && inRAM`; otherwise `Promise.all(waiting)`, rejecting when
some scheduled durable write fails (`fails`), else resolving with the hash. -/
def resolvePut (r : PutOk) (fails : DurableWrite → Bool) : Except PutErr Hash :=
  if r.immediate then .ok r.hash
  else if r.scheduled.any fails then .error .durableWriteFailure
  else .ok r.hash

/-- `getByHash(hash)` (src/index.js lines 353-373).  `.error` is the `NotFound`
throw, carrying the state at the throw (a failed durable read, and also a
`_storeCacheInRAM` throw, are swallowed by `catch (_) {}` and fall through to
the `NotFound` throw). -/
def getByHash (env : Env) (st : CacheState) (h : Hash) (now : Nat) :
    Except CacheState (Payload × CacheState) :=
  match alookup st.caches h with
  | some e => .ok (e.data, { st with caches := setTime st.caches h now })
  | none =>
    if st.longterm then
      match env.dcache h with
      | some data =>
        match storeCacheInRAM env.score st h data now with
        | .ok (_, st1) => .ok (data, st1)
        | .error stc => .error stc
      | none => .error st
    else .error st

/-- `getByPath(path)` (src/index.js lines 380-400). -/
def getByPath (env : Env) (st : CacheState) (path : Path) (now : Nat) :
    Except CacheState (Payload × CacheState) :=
  match alookup st.paths path with
  | some pe => getByHash env st pe.hash now
  | none =>
    if st.longterm then
      match env.dpath path with
      | some h => getByHash env (storePathInRAM st path h) h now
      | none => .error st
    else .error st

/-- The `totalLimit` setter (lines 201-204): store the new limit, then
`_freeSpaceInRAM(0)` (which reads a fresh `now`). -/
def setTotalLimit (sc : Nat → Nat → Nat) (st : CacheState) (n now : Nat) :
    Except CacheState CacheState :=
  freeSpaceInRAM sc { st with totalLimit := n } 0 now

/-- Durable-tier contents, for the path-deletion operations. -/
structure Durable where
  dpaths : List (Path × Hash)
  dcaches : List (Hash × Payload)
deriving Repr, DecidableEq

/-- Modelled from the spec: `deleteByPath(path)` is exercised by the
repository's tests but its implementation is not under src/; per the spec it
removes the matching PathEntry from RAM and, if durable is configured, from the
durable tier, never touching any ContentEntry. -/
def deleteByPath (st : CacheState) (dur : Durable) (path : Path) :
    CacheState × Durable :=
  ({ st with paths := st.paths.filter fun q => !(q.1 = path : Bool) },
   if st.longterm then
     { dur with dpaths := dur.dpaths.filter fun q => !(q.1 = path : Bool) }
   else dur)

/-- Modelled from the spec: `deleteByPathStart(prefix)` is exercised by the
repository's tests but its implementation is not under src/; per the spec it
removes every PathEntry whose path starts with the given string from RAM and,
if durable is configured, from the durable tier, never touching any
ContentEntry. -/
def deleteByPathStart (st : CacheState) (dur : Durable) (pre : String) :
    CacheState × Durable :=
  ({ st with paths := st.paths.filter fun q => !(q.1.startsWith pre) },
   if st.longterm then
     { dur with dpaths := dur.dpaths.filter fun q => !(q.1.startsWith pre) }
   else dur)

/-- One completed call against the instance (the operations claim C1 ranges
over), each carrying the wall-clock reading(s) it takes. -/
inductive Op where
  | opPut (data : Payload) (paths : List Path) (wait : Bool) (now : Nat)
  | opGetByHash (h : Hash) (now : Nat)
  | opGetByPath (p : Path) (now : Nat)
  | opSetTotalLimit (n : Nat) (now : Nat)

/-- The instance state after one operation settles, successful or not (errors
carry the state at the reject/throw). -/
def step (env : Env) (st : CacheState) : Op → CacheState
  | .opPut data paths wait now =>
    match put env st data paths wait now with
    | .ok r => r.st
    | .error (_, stc) => stc
  | .opGetByHash h now =>
    match getByHash env st h now with
    | .ok (_, st1) => st1
    | .error st1 => st1
  | .opGetByPath p now =>
    match getByPath env st p now with
    | .ok (_, st1) => st1
    | .error st1 => st1
  | .opSetTotalLimit n now =>
    match setTotalLimit env.score st n now with
    | .ok st1 => st1
    | .error st1 => st1

/-- Run a sequence of operations. -/
def runOps (env : Env) (st : CacheState) : List Op → CacheState
  | [] => st
  | op :: ops => runOps env (step env st op) ops

/-- The constructor (lines 37-54): `x||default` maps the falsy 0 (and an
omitted option) to the default, so the options are taken as naturals with 0
standing for "unset". -/
def initState (fl tl pl : Nat) (lt : Bool) : CacheState :=
  { fileLimit := if fl = 0 then 100000 else fl
    totalLimit := if tl = 0 then 500000000 else tl
    pathLimit := if pl = 0 then 100000 else pl
    longterm := lt
    pathIndex := 0
    current := 0
    caches := []
    paths := [] }

/-! ### Association-list lemmas -/

theorem alookup_eq_none {β : Type} (l : List (String × β)) (k : String) :
    alookup l k = none ↔ k ∉ l.map Prod.fst := by
  induction l with
  | nil => simp [alookup]
  | cons p ps ih =>
    by_cases h : p.1 = k
    · simp [alookup, h]
    · rw [alookup, if_neg h, ih]
      constructor
      · intro h1
        simp only [List.map_cons, List.mem_cons]
        rintro (hc | hc)
        · exact h hc.symm
        · exact h1 hc
      · intro h1 hc
        exact h1 (by simp [hc])

theorem alookup_mem {β : Type} {l : List (String × β)} {k : String} {v : β}
    (h : alookup l k = some v) : (k, v) ∈ l := by
  induction l with
  | nil => simp [alookup] at h
  | cons p ps ih =>
    by_cases hp : p.1 = k
    · simp [alookup, hp] at h
      subst h
      simp [← hp]
    · simp [alookup, hp] at h
      exact List.mem_cons_of_mem _ (ih h)

theorem alookup_of_mem_nodup {β : Type} {l : List (String × β)} {k : String}
    {v : β} (hn : (l.map Prod.fst).Nodup) (h : (k, v) ∈ l) :
    alookup l k = some v := by
  induction l with
  | nil => simp at h
  | cons p ps ih =>
    have hn1 : p.1 ∉ ps.map Prod.fst := (List.nodup_cons.mp hn).1
    have hn2 : (ps.map Prod.fst).Nodup := (List.nodup_cons.mp hn).2
    rcases List.mem_cons.mp h with h1 | h1
    · subst h1
      simp [alookup]
    · have hk : p.1 ≠ k := by
        intro he
        apply hn1
        rw [he]
        exact List.mem_map_of_mem Prod.fst h1
      simp [alookup, hk]
      exact ih hn2 h1

theorem aerase_sublist {β : Type} (l : List (String × β)) (k : String) :
    List.Sublist (aerase l k) l := by
  induction l with
  | nil => simp [aerase]
  | cons p ps ih =>
    by_cases h : p.1 = k
    · simp [aerase, h]
    · simpa [aerase, h] using ih.cons₂ p

theorem aerase_perm {β : Type} {l : List (String × β)} {k : String} {v : β}
    (h : alookup l k = some v) : List.Perm l ((k, v) :: aerase l k) := by
  induction l with
  | nil => simp [alookup] at h
  | cons p ps ih =>
    by_cases hp : p.1 = k
    · simp [alookup, hp] at h
      subst h
      have : p = (k, p.2) := by rw [← hp]
      rw [aerase, if_pos hp, ← this]
    · simp [alookup, hp] at h
      rw [aerase, if_neg hp]
      exact ((ih h).cons p).trans (List.Perm.swap _ _ _)

theorem alookup_aerase_ne {β : Type} (l : List (String × β)) {k k' : String}
    (h : k' ≠ k) : alookup (aerase l k) k' = alookup l k' := by
  induction l with
  | nil => rfl
  | cons p ps ih =>
    by_cases hp : p.1 = k
    · rw [aerase, if_pos hp, alookup,
        if_neg (by rw [hp]; exact fun he => h he.symm)]
    · rw [aerase, if_neg hp, alookup, alookup]
      by_cases hq : p.1 = k'
      · rw [if_pos hq, if_pos hq]
      · rw [if_neg hq, if_neg hq]
        exact ih

theorem eq_of_mem_not_mem_aerase {β : Type} {l : List (String × β)}
    {k : String} {v : β} {p : String × β} (hl : alookup l k = some v)
    (hmem : p ∈ l) (hnot : p ∉ aerase l k) : p = (k, v) := by
  induction l with
  | nil => simp at hmem
  | cons q qs ih =>
    by_cases hq : q.1 = k
    · simp [alookup, hq] at hl
      rw [aerase, if_pos hq] at hnot
      rcases List.mem_cons.mp hmem with h1 | h1
      · subst h1
        rw [← hl, ← hq]
      · exact absurd h1 hnot
    · simp [alookup, hq] at hl
      rw [aerase, if_neg hq] at hnot
      rcases List.mem_cons.mp hmem with h1 | h1
      · exact absurd (h1 ▸ List.mem_cons_self q (aerase qs k)) hnot
      · exact ih hl h1 (fun hc => hnot (List.mem_cons_of_mem q hc))

theorem key_ne_of_mem_aerase {β : Type} {l : List (String × β)} {k : String}
    {q : String × β} (hn : (l.map Prod.fst).Nodup) (hq : q ∈ aerase l k) :
    q.1 ≠ k := by
  induction l with
  | nil => simp [aerase] at hq
  | cons p ps ih =>
    have hn1 : p.1 ∉ ps.map Prod.fst := (List.nodup_cons.mp hn).1
    have hn2 : (ps.map Prod.fst).Nodup := (List.nodup_cons.mp hn).2
    by_cases hp : p.1 = k
    · rw [aerase, if_pos hp] at hq
      intro he
      apply hn1
      rw [hp, ← he]
      exact List.mem_map_of_mem Prod.fst hq
    · rw [aerase, if_neg hp] at hq
      rcases List.mem_cons.mp hq with h1 | h1
      · rw [h1]; exact hp
      · exact ih hn2 h1

/-! ### Size-accounting lemmas -/

theorem sumSizes_perm {l l' : List (Hash × CacheEntry)}
    (h : List.Perm l l') : sumSizes l = sumSizes l' := by
  unfold sumSizes
  exact (h.map fun p => p.2.data.length).sum_eq

theorem sumSizes_cons (p : Hash × CacheEntry) (l : List (Hash × CacheEntry)) :
    sumSizes (p :: l) = p.2.data.length + sumSizes l := by
  simp [sumSizes]

theorem sumSizes_append (l l' : List (Hash × CacheEntry)) :
    sumSizes (l ++ l') = sumSizes l + sumSizes l' := by
  simp [sumSizes]

theorem sumSizes_aerase {l : List (Hash × CacheEntry)} {k : Hash}
    {v : CacheEntry} (h : alookup l k = some v) :
    sumSizes l = v.data.length + sumSizes (aerase l k) := by
  have := sumSizes_perm (aerase_perm h)
  rwa [sumSizes_cons] at this

/-! ### Timestamp-refresh lemmas -/

theorem map_fst_setTime (l : List (Hash × CacheEntry)) (k : Hash) (t : Nat) :
    (setTime l k t).map Prod.fst = l.map Prod.fst := by
  induction l with
  | nil => rfl
  | cons p ps ih =>
    by_cases h : p.1 = k <;> simp [setTime, h] at ih ⊢ <;> exact ih

theorem sumSizes_setTime (l : List (Hash × CacheEntry)) (k : Hash) (t : Nat) :
    sumSizes (setTime l k t) = sumSizes l := by
  induction l with
  | nil => rfl
  | cons p ps ih =>
    by_cases h : p.1 = k <;>
      simp [setTime, sumSizes_cons, h] at ih ⊢ <;> omega

theorem alookup_setTime_self {l : List (Hash × CacheEntry)} {k : Hash}
    {e : CacheEntry} (t : Nat) (h : alookup l k = some e) :
    alookup (setTime l k t) k = some { e with time := t } := by
  induction l with
  | nil => simp [alookup] at h
  | cons p ps ih =>
    by_cases hp : p.1 = k
    · simp [alookup, hp] at h
      simp [setTime, alookup, hp, h]
    · simp [alookup, hp] at h
      simp [setTime, alookup, hp]
      exact ih h

/-! ### Sorting lemmas for the eviction pass -/

theorem insertAsc_perm (x : Nat × Hash) (l : List (Nat × Hash)) :
    List.Perm (insertAsc x l) (x :: l) := by
  induction l with
  | nil => rfl
  | cons y ys ih =>
    by_cases h : y.1 ≤ x.1
    · rw [insertAsc, if_pos h]
      exact (ih.cons y).trans (List.Perm.swap x y ys)
    · rw [insertAsc, if_neg h]

theorem sortAsc_core_perm (l : List (Nat × Hash)) :
    ∀ acc, List.Perm (l.foldl (fun a x => insertAsc x a) acc) (acc ++ l) := by
  induction l with
  | nil => intro acc; simp
  | cons x xs ih =>
    intro acc
    rw [List.foldl_cons]
    refine (ih (insertAsc x acc)).trans ?_
    refine ((insertAsc_perm x acc).append_right xs).trans ?_
    exact List.perm_middle.symm

theorem sortAsc_perm (l : List (Nat × Hash)) : List.Perm (sortAsc l) l := by
  simpa using sortAsc_core_perm l []

theorem insertAsc_pairwise {l : List (Nat × Hash)} (x : Nat × Hash)
    (h : List.Pairwise (fun a b => a.1 ≤ b.1) l) :
    List.Pairwise (fun a b => a.1 ≤ b.1) (insertAsc x l) := by
  induction l with
  | nil => simp [insertAsc]
  | cons y ys ih =>
    rcases List.pairwise_cons.mp h with ⟨hy, hys⟩
    by_cases hle : y.1 ≤ x.1
    · rw [insertAsc, if_pos hle]
      refine List.pairwise_cons.mpr ⟨?_, ih hys⟩
      intro z hz
      have hz2 : z ∈ x :: ys := (insertAsc_perm x ys).mem_iff.mp hz
      rcases List.mem_cons.mp hz2 with h1 | h1
      · rw [h1]; exact hle
      · exact hy z h1
    · rw [insertAsc, if_neg hle]
      push_neg at hle
      refine List.pairwise_cons.mpr ⟨?_, h⟩
      intro z hz
      rcases List.mem_cons.mp hz with h1 | h1
      · rw [h1]; exact le_of_lt hle
      · exact le_trans (le_of_lt hle) (hy z h1)

theorem sortAsc_pairwise (l : List (Nat × Hash)) :
    List.Pairwise (fun a b => a.1 ≤ b.1) (sortAsc l) := by
  suffices h : ∀ acc, List.Pairwise (fun a b => a.1 ≤ b.1) acc →
      List.Pairwise (fun a b => a.1 ≤ b.1)
        (l.foldl (fun a x => insertAsc x a) acc) from h [] (by simp)
  induction l with
  | nil =>
    intro acc hacc
    simpa using hacc
  | cons x xs ih =>
    intro acc hacc
    rw [List.foldl_cons]
    exact ih _ (insertAsc_pairwise x hacc)

/-! ### The eviction loop -/

/-- Score of a resident entry at wall-clock `now`, as `_freeSpaceInRAM`
computes it. -/
def scoreE (sc : Nat → Nat → Nat) (now : Nat) (p : Hash × CacheEntry) : Nat :=
  sc (now - p.2.time) p.2.data.length

theorem sumSizes_nil : sumSizes ([] : List (Hash × CacheEntry)) = 0 := rfl

theorem evictLoop_stop {size limit cur : Nat} (stack : List (Nat × Hash))
    (caches : List (Hash × CacheEntry)) (hlim : cur + size ≤ limit) :
    evictLoop size limit stack cur caches = .ok (cur, caches) := by
  conv_lhs => rw [evictLoop.eq_def]
  simp only [if_pos hlim]

theorem evictLoop_nil_fail {size limit cur : Nat}
    (caches : List (Hash × CacheEntry)) (hlim : ¬ cur + size ≤ limit) :
    evictLoop size limit [] cur caches = .error (cur, caches) := by
  conv_lhs => rw [evictLoop.eq_def]
  simp only [if_neg hlim]

theorem evictLoop_cons_step {size limit cur : Nat} {s : Nat} {h : Hash}
    {rest : List (Nat × Hash)} {caches : List (Hash × CacheEntry)}
    {e : CacheEntry} (hlim : ¬ cur + size ≤ limit)
    (he : alookup caches h = some e) :
    evictLoop size limit ((s, h) :: rest) cur caches =
      evictLoop size limit rest (cur - e.data.length) (aerase caches h) := by
  conv_lhs => rw [evictLoop.eq_def]
  simp only [if_neg hlim, he]

/-- Master lemma about the `while` loop of `_freeSpaceInRAM`: given a pending
stack that scores every resident entry (highest scores first), either the loop
ends under the limit having removed a maximal-score set of entries, or it dies
popping an empty stack, at which point everything has been evicted. -/
theorem evictLoop_spec (sc : Nat → Nat → Nat) (now size limit : Nat)
    (stack : List (Nat × Hash)) :
    ∀ (cur : Nat) (caches : List (Hash × CacheEntry)),
    (∀ s h, (s, h) ∈ stack →
        ∃ e, alookup caches h = some e ∧ s = sc (now - e.time) e.data.length) →
    (∀ p ∈ caches, (scoreE sc now p, p.1) ∈ stack) →
    (stack.map Prod.snd).Nodup →
    (caches.map Prod.fst).Nodup →
    cur = sumSizes caches →
    List.Pairwise (fun a b => b.1 ≤ a.1) stack →
    (match evictLoop size limit stack cur caches with
     | .ok (c, cs) =>
         ∃ ev, List.Perm caches (cs ++ ev) ∧
           List.Sublist cs caches ∧
           c = sumSizes cs ∧
           cur = c + sumSizes ev ∧
           c + size ≤ limit ∧
           ∀ p ∈ ev, ∀ q ∈ cs, scoreE sc now q ≤ scoreE sc now p
     | .error (c, cs) => cs = [] ∧ c = 0 ∧ ¬ c + size ≤ limit) := by
  induction stack with
  | nil =>
    intro cur caches hA hB hC hD hE hF
    by_cases hlim : cur + size ≤ limit
    · rw [evictLoop_stop _ _ hlim]
      exact ⟨[], by simp, List.Sublist.refl _, hE,
        by simp [sumSizes_nil], hlim, by simp⟩
    · rw [evictLoop_nil_fail _ hlim]
      have hnil : caches = [] := by
        cases caches with
        | nil => rfl
        | cons p ps => exact absurd (hB p (List.mem_cons_self p ps)) (by simp)
      subst hnil
      have hc0 : cur = 0 := by simpa [sumSizes_nil] using hE
      exact ⟨rfl, hc0, hlim⟩
  | cons top rest ih =>
    intro cur caches hA hB hC hD hE hF
    obtain ⟨s, h⟩ := top
    by_cases hlim : cur + size ≤ limit
    · rw [evictLoop_stop _ _ hlim]
      exact ⟨[], by simp, List.Sublist.refl _, hE,
        by simp [sumSizes_nil], hlim, by simp⟩
    · obtain ⟨e, he, hse⟩ := hA s h (List.mem_cons_self _ _)
      rw [evictLoop_cons_step hlim he]
      have hCh : h ∉ rest.map Prod.snd := (List.nodup_cons.mp hC).1
      have hA' : ∀ s' h', (s', h') ∈ rest →
          ∃ e', alookup (aerase caches h) h' = some e' ∧
            s' = sc (now - e'.time) e'.data.length := by
        intro s' h' hmem
        obtain ⟨e', he', hse'⟩ := hA s' h' (List.mem_cons_of_mem _ hmem)
        have hne : h' ≠ h := by
          intro hc
          exact hCh (hc ▸ List.mem_map_of_mem Prod.snd hmem)
        exact ⟨e', (alookup_aerase_ne caches hne).trans he', hse'⟩
      have hB' : ∀ p ∈ aerase caches h, (scoreE sc now p, p.1) ∈ rest := by
        intro p hp
        have hpc : p ∈ caches := (aerase_sublist caches h).mem hp
        have hne : p.1 ≠ h := key_ne_of_mem_aerase hD hp
        rcases List.mem_cons.mp (hB p hpc) with h1 | h1
        · exact absurd (congrArg Prod.snd h1) hne
        · exact h1
      have hC' : (rest.map Prod.snd).Nodup := (List.nodup_cons.mp hC).2
      have hD' : ((aerase caches h).map Prod.fst).Nodup :=
        hD.sublist ((aerase_sublist caches h).map Prod.fst)
      have hsum : sumSizes caches = e.data.length + sumSizes (aerase caches h) :=
        sumSizes_aerase he
      have hE' : cur - e.data.length = sumSizes (aerase caches h) := by omega
      have hF' : List.Pairwise (fun a b => b.1 ≤ a.1) rest :=
        (List.pairwise_cons.mp hF).2
      have hFh : ∀ y ∈ rest, y.1 ≤ s := (List.pairwise_cons.mp hF).1
      have := ih (cur - e.data.length) (aerase caches h) hA' hB' hC' hD' hE' hF'
      revert this
      cases hrec : evictLoop size limit rest (cur - e.data.length)
          (aerase caches h) with
      | error p =>
        obtain ⟨c, cs⟩ := p
        intro hres
        exact hres
      | ok p =>
        obtain ⟨c, cs⟩ := p
        rintro ⟨ev', hperm', hsub', hc', hcur', hlim', hscore'⟩
        refine ⟨(h, e) :: ev', ?_, hsub'.trans (aerase_sublist caches h), hc',
          ?_, hlim', ?_⟩
        · refine (aerase_perm he).trans ?_
          refine (hperm'.cons (h, e)).trans ?_
          exact List.perm_middle.symm
        · rw [sumSizes_cons]
          show cur = c + (e.data.length + sumSizes ev')
          omega
        · intro p hp q hq
          rcases List.mem_cons.mp hp with h1 | h1
          · have hqe : q ∈ aerase caches h := hsub'.mem hq
            have hqs : scoreE sc now q ≤ s := hFh _ (hB' q hqe)
            rw [h1]
            simpa [scoreE, hse] using hqs
          · exact hscore' p h1 q hq

/-! ### Free-space invariants -/

/-- Accounting invariant: `_current` equals the total size of the resident
payloads, and `_caches` has no duplicate keys. -/
def Inv0 (st : CacheState) : Prop :=
  st.current = sumSizes st.caches ∧ (st.caches.map Prod.fst).Nodup

/-- The resident-size invariant of claim C1, together with the accounting
facts that make it inductive. -/
def SizeInv (st : CacheState) : Prop :=
  Inv0 st ∧ st.current ≤ st.totalLimit

theorem map_snd_toScore (sc : Nat → Nat → Nat) (now : Nat)
    (l : List (Hash × CacheEntry)) :
    (l.map (toScore sc now)).map Prod.snd = l.map Prod.fst := by
  induction l with
  | nil => rfl
  | cons p ps ih => simp [toScore, ih]

/-- The stack that `_freeSpaceInRAM` builds and then pops from. -/
def evStack (sc : Nat → Nat → Nat) (now : Nat)
    (caches : List (Hash × CacheEntry)) : List (Nat × Hash) :=
  (sortAsc (caches.map (toScore sc now))).reverse

theorem evStack_mem (sc : Nat → Nat → Nat) (now : Nat)
    (caches : List (Hash × CacheEntry)) (x : Nat × Hash) :
    x ∈ evStack sc now caches ↔ x ∈ caches.map (toScore sc now) := by
  rw [evStack, List.mem_reverse]
  exact (sortAsc_perm _).mem_iff

theorem evStack_hyps (sc : Nat → Nat → Nat) (now : Nat)
    (caches : List (Hash × CacheEntry))
    (hD : (caches.map Prod.fst).Nodup) :
    (∀ s h, (s, h) ∈ evStack sc now caches →
        ∃ e, alookup caches h = some e ∧ s = sc (now - e.time) e.data.length) ∧
    (∀ p ∈ caches, (scoreE sc now p, p.1) ∈ evStack sc now caches) ∧
    ((evStack sc now caches).map Prod.snd).Nodup ∧
    List.Pairwise (fun a b => b.1 ≤ a.1) (evStack sc now caches) := by
  refine ⟨?_, ?_, ?_, ?_⟩
  · intro s h hmem
    rcases List.mem_map.mp ((evStack_mem sc now caches (s, h)).mp hmem)
      with ⟨p, hp, hps⟩
    have h1 : p.1 = h := congrArg Prod.snd hps
    have h2 : s = sc (now - p.2.time) p.2.data.length :=
      (congrArg Prod.fst hps).symm
    refine ⟨p.2, ?_, h2⟩
    rw [← h1]
    exact alookup_of_mem_nodup hD (by simpa using hp)
  · intro p hp
    rw [evStack_mem]
    exact List.mem_map.mpr ⟨p, hp, rfl⟩
  · have hperm : List.Perm ((evStack sc now caches).map Prod.snd)
        (caches.map Prod.fst) := by
      rw [← map_snd_toScore sc now caches, evStack, List.map_reverse]
      exact (List.reverse_perm _).trans ((sortAsc_perm _).map Prod.snd)
    exact hperm.nodup_iff.mpr hD
  · have := sortAsc_pairwise (caches.map (toScore sc now))
    rw [evStack]
    exact List.pairwise_reverse.mpr this

theorem evStack_def (sc : Nat → Nat → Nat) (now : Nat)
    (caches : List (Hash × CacheEntry)) :
    (sortAsc (caches.map (toScore sc now))).reverse = evStack sc now caches :=
  rfl

/-- What a successful `_freeSpaceInRAM` run does: it leaves every field but
`_current`/`_caches` alone, removes a (possibly empty) maximal-score set `ev`
of resident entries, and ends with at least `size` bytes of headroom. -/
theorem freeSpaceInRAM_ok_spec {sc : Nat → Nat → Nat} {st st' : CacheState}
    {size now : Nat} (hinv : Inv0 st)
    (hok : freeSpaceInRAM sc st size now = .ok st') :
    st'.fileLimit = st.fileLimit ∧ st'.totalLimit = st.totalLimit ∧
    st'.pathLimit = st.pathLimit ∧ st'.longterm = st.longterm ∧
    st'.pathIndex = st.pathIndex ∧ st'.paths = st.paths ∧
    ∃ ev, List.Perm st.caches (st'.caches ++ ev) ∧
      List.Sublist st'.caches st.caches ∧
      st'.current = sumSizes st'.caches ∧
      st.current = st'.current + sumSizes ev ∧
      st'.current + size ≤ st.totalLimit ∧
      ∀ p ∈ ev, ∀ q ∈ st'.caches, scoreE sc now q ≤ scoreE sc now p := by
  obtain ⟨hA, hB, hC, hF⟩ := evStack_hyps sc now st.caches hinv.2
  have master := evictLoop_spec sc now size st.totalLimit
    (evStack sc now st.caches) st.current st.caches hA hB hC hinv.2 hinv.1 hF
  simp only [freeSpaceInRAM, evStack_def] at hok
  by_cases hc : st.current + size > st.totalLimit
  · rw [if_pos hc] at hok
    rcases hres : evictLoop size st.totalLimit (evStack sc now st.caches)
        st.current st.caches with ⟨c, cs⟩ | ⟨c, cs⟩
    · rw [hres] at hok
      simp only at hok
      exact absurd hok (by simp)
    · rw [hres] at hok master
      simp only at hok master
      obtain ⟨ev, hperm, hsub, hcs, hcur, hlim, hsc⟩ := master
      obtain rfl := Except.ok.inj hok
      exact ⟨rfl, rfl, rfl, rfl, rfl, rfl, ev, hperm, hsub, hcs, hcur, hlim, hsc⟩
  · rw [if_neg hc] at hok
    have hst : st = st' := by simpa using hok
    subst hst
    refine ⟨rfl, rfl, rfl, rfl, rfl, rfl, [], by simp, List.Sublist.refl _,
      hinv.1, by simp [sumSizes_nil], by omega, by simp⟩

/-- What the `_freeSpaceInRAM` `TypeError` (popping an empty candidate array)
leaves behind: an empty RAM cache, a zero accumulator, and every other field
untouched; it can only happen when `size` alone exceeds `_totalLimit`. -/
theorem freeSpaceInRAM_error_spec {sc : Nat → Nat → Nat} {st stc : CacheState}
    {size now : Nat} (hinv : Inv0 st)
    (herr : freeSpaceInRAM sc st size now = .error stc) :
    stc.caches = [] ∧ stc.current = 0 ∧ st.totalLimit < size ∧
    stc.fileLimit = st.fileLimit ∧ stc.totalLimit = st.totalLimit ∧
    stc.pathLimit = st.pathLimit ∧ stc.longterm = st.longterm ∧
    stc.pathIndex = st.pathIndex ∧ stc.paths = st.paths := by
  obtain ⟨hA, hB, hC, hF⟩ := evStack_hyps sc now st.caches hinv.2
  have master := evictLoop_spec sc now size st.totalLimit
    (evStack sc now st.caches) st.current st.caches hA hB hC hinv.2 hinv.1 hF
  simp only [freeSpaceInRAM, evStack_def] at herr
  by_cases hc : st.current + size > st.totalLimit
  · rw [if_pos hc] at herr
    rcases hres : evictLoop size st.totalLimit (evStack sc now st.caches)
        st.current st.caches with ⟨c, cs⟩ | ⟨c, cs⟩
    · rw [hres] at herr master
      simp only at herr master
      obtain ⟨hcs, hc0, hlim⟩ := master
      obtain rfl := Except.error.inj herr
      subst hcs hc0
      exact ⟨rfl, rfl, by omega, rfl, rfl, rfl, rfl, rfl, rfl⟩
    · rw [hres] at herr
      simp only at herr
      exact absurd herr (by simp)
  · rw [if_neg hc] at herr
    exact absurd herr (by simp)

/-- If the incoming payload alone fits under `_totalLimit`, `_freeSpaceInRAM`
cannot throw. -/
theorem freeSpaceInRAM_ok_exists {sc : Nat → Nat → Nat} {st : CacheState}
    {size now : Nat} (hinv : Inv0 st) (hsz : size ≤ st.totalLimit) :
    ∃ st', freeSpaceInRAM sc st size now = .ok st' := by
  rcases hres : freeSpaceInRAM sc st size now with stc | st'
  · obtain ⟨_, _, hlt, _⟩ := freeSpaceInRAM_error_spec hinv hres
    omega
  · exact ⟨st', rfl⟩

/-! ### Storing a payload in RAM -/

theorem alookup_append_right {β : Type} {l : List (String × β)}
    (l2 : List (String × β)) {k : String} (h : alookup l k = none) :
    alookup (l ++ l2) k = alookup l2 k := by
  induction l with
  | nil => rfl
  | cons p ps ih =>
    by_cases hp : p.1 = k
    · simp [alookup, hp] at h
    · simp [alookup, hp] at h ⊢
      exact ih h

theorem storeCacheInRAM_resident {sc : Nat → Nat → Nat} {st : CacheState}
    {h : Hash} {e : CacheEntry} (d : Payload) (now : Nat)
    (he : alookup st.caches h = some e) :
    storeCacheInRAM sc st h d now =
      .ok (true, { st with caches := setTime st.caches h now }) := by
  simp only [storeCacheInRAM, he]

theorem storeCacheInRAM_miss_big {sc : Nat → Nat → Nat} {st : CacheState}
    {h : Hash} {d : Payload} (now : Nat) (he : alookup st.caches h = none)
    (hbig : d.length > st.fileLimit) :
    storeCacheInRAM sc st h d now = .ok (false, st) := by
  simp only [storeCacheInRAM, he, if_pos hbig]

theorem storeCacheInRAM_miss_fits {sc : Nat → Nat → Nat} {st : CacheState}
    {h : Hash} {d : Payload} (now : Nat) (he : alookup st.caches h = none)
    (hfit : ¬ d.length > st.fileLimit) :
    storeCacheInRAM sc st h d now =
      match freeSpaceInRAM sc st d.length now with
      | .error stc => .error stc
      | .ok st1 => .ok (true, { st1 with
          current := st1.current + d.length
          caches := st1.caches ++ [(h, ⟨now, d⟩)] }) := by
  simp only [storeCacheInRAM, he, if_neg hfit]

/-- `_storeCacheInRAM` preserves the accounting invariant and all fields other
than `_current`/`_caches`, whether it returns or throws. -/
theorem storeCacheInRAM_inv {sc : Nat → Nat → Nat} {st : CacheState} {h : Hash}
    {d : Payload} {now : Nat} (hinv : SizeInv st) :
    (∀ b st', storeCacheInRAM sc st h d now = .ok (b, st') →
      SizeInv st' ∧ st'.fileLimit = st.fileLimit ∧
      st'.totalLimit = st.totalLimit ∧ st'.pathLimit = st.pathLimit ∧
      st'.longterm = st.longterm ∧ st'.pathIndex = st.pathIndex ∧
      st'.paths = st.paths) ∧
    (∀ stc, storeCacheInRAM sc st h d now = .error stc →
      SizeInv stc ∧ stc.fileLimit = st.fileLimit ∧
      stc.totalLimit = st.totalLimit ∧ stc.pathLimit = st.pathLimit ∧
      stc.longterm = st.longterm ∧ stc.pathIndex = st.pathIndex ∧
      stc.paths = st.paths) := by
  obtain ⟨⟨hsum, hnd⟩, hle⟩ := hinv
  rcases he : alookup st.caches h with _ | e
  · by_cases hbig : d.length > st.fileLimit
    · rw [storeCacheInRAM_miss_big now he hbig]
      constructor
      · intro b st' hok
        obtain ⟨rfl, rfl⟩ : b = false ∧ st = st' := by
          simpa using hok
        exact ⟨⟨⟨hsum, hnd⟩, hle⟩, rfl, rfl, rfl, rfl, rfl, rfl⟩
      · intro stc hbad
        simp at hbad
    · rw [storeCacheInRAM_miss_fits now he hbig]
      have hinv0 : Inv0 st := ⟨hsum, hnd⟩
      rcases hfs : freeSpaceInRAM sc st d.length now with stc1 | st1
      · constructor
        · intro b st' hok
          exact absurd hok (by simp)
        · intro stc hbad
          simp only at hbad
          obtain rfl := Except.error.inj hbad
          obtain ⟨hc1, hc2, _, hf1, hf2, hf3, hf4, hf5, hf6⟩ :=
            freeSpaceInRAM_error_spec hinv0 hfs
          refine ⟨⟨⟨?_, ?_⟩, ?_⟩, hf1, hf2, hf3, hf4, hf5, hf6⟩
          · rw [hc2, hc1, sumSizes_nil]
          · rw [hc1]; exact List.nodup_nil
          · rw [hc2]; exact Nat.zero_le _
      · obtain ⟨hf1, hf2, hf3, hf4, hf5, hf6, ev, hperm, hsub, hcs, hcur,
          hlim, hsc⟩ := freeSpaceInRAM_ok_spec hinv0 hfs
        constructor
        · intro b st' hok
          simp only at hok
          have h1 := Except.ok.inj hok
          injection h1 with hb hst
          subst hb
          subst hst
          have hnotin : h ∉ st1.caches.map Prod.fst := by
            intro hc
            exact (alookup_eq_none st.caches h).mp he
              ((hsub.map Prod.fst).mem hc)
          refine ⟨⟨⟨?_, ?_⟩, ?_⟩, hf1, hf2, hf3, hf4, hf5, hf6⟩
          · show st1.current + d.length =
              sumSizes (st1.caches ++ [(h, ⟨now, d⟩)])
            rw [sumSizes_append, sumSizes_cons, sumSizes_nil, hcs]
            rfl
          · show ((st1.caches ++ [(h, (⟨now, d⟩ : CacheEntry))]).map
              Prod.fst).Nodup
            rw [List.map_append]
            show (st1.caches.map Prod.fst ++ [h]).Nodup
            refine (List.perm_append_singleton h _).nodup_iff.mpr ?_
            exact List.nodup_cons.mpr ⟨hnotin,
              hnd.sublist (hsub.map Prod.fst)⟩
          · show st1.current + d.length ≤ st1.totalLimit
            rw [hf2]
            omega
        · intro stc hbad
          exact absurd hbad (by simp)
  · rw [storeCacheInRAM_resident d now he]
    constructor
    · intro b st' hok
      obtain ⟨rfl, rfl⟩ : b = true ∧
          ({ st with caches := setTime st.caches h now } : CacheState) = st' := by
        simpa using hok
      refine ⟨⟨⟨?_, ?_⟩, hle⟩, rfl, rfl, rfl, rfl, rfl, rfl⟩
      · simpa [sumSizes_setTime] using hsum
      · simpa [map_fst_setTime] using hnd
    · intro stc hbad
      simp at hbad

/-- If the payload passes the per-item check and alone fits under
`_totalLimit`, `_storeCacheInRAM` succeeds and reports it resident. -/
theorem storeCacheInRAM_admit {sc : Nat → Nat → Nat} {st : CacheState}
    {h : Hash} {d : Payload} (now : Nat) (hinv : Inv0 st)
    (hfit : ¬ d.length > st.fileLimit) (htl : d.length ≤ st.totalLimit) :
    ∃ st', storeCacheInRAM sc st h d now = .ok (true, st') := by
  rcases he : alookup st.caches h with _ | e
  · obtain ⟨st1, hfs⟩ := freeSpaceInRAM_ok_exists hinv htl
    rw [storeCacheInRAM_miss_fits now he hfit, hfs]
    exact ⟨_, rfl⟩
  · rw [storeCacheInRAM_resident d now he]
    exact ⟨_, rfl⟩

/-- After `_storeCacheInRAM` returns `true`, the hash is resident. -/
theorem storeCacheInRAM_true_resident {sc : Nat → Nat → Nat} {st st' : CacheState}
    {h : Hash} {d : Payload} {now : Nat} (hinv : Inv0 st)
    (hok : storeCacheInRAM sc st h d now = .ok (true, st')) :
    ∃ e', alookup st'.caches h = some e' := by
  rcases he : alookup st.caches h with _ | e
  · by_cases hbig : d.length > st.fileLimit
    · rw [storeCacheInRAM_miss_big now he hbig] at hok
      simp at hok
    · rw [storeCacheInRAM_miss_fits now he hbig] at hok
      rcases hfs : freeSpaceInRAM sc st d.length now with stc | st1
      · rw [hfs] at hok
        exact absurd hok (by simp)
      · rw [hfs] at hok
        simp only at hok
        have h1 := Except.ok.inj hok
        injection h1 with _ hst
        subst hst
        obtain ⟨_, _, _, _, _, _, ev, _, hsub, _⟩ :=
          freeSpaceInRAM_ok_spec hinv hfs
        have hn1 : alookup st1.caches h = none := by
          rw [alookup_eq_none]
          intro hc
          exact (alookup_eq_none st.caches h).mp he ((hsub.map Prod.fst).mem hc)
        show ∃ e', alookup (st1.caches ++ [(h, ⟨now, d⟩)]) h = some e'
        rw [alookup_append_right _ hn1]
        exact ⟨⟨now, d⟩, by simp [alookup]⟩
  · rw [storeCacheInRAM_resident d now he] at hok
    have h1 := Except.ok.inj hok
    injection h1 with _ hst
    subst hst
    exact ⟨_, alookup_setTime_self now he⟩

/-! ### Path-store lemmas -/

/-- `_storePathInRAM` touches only `_paths` and `_pathIndex`. -/
theorem storePathInRAM_fields (st : CacheState) (p : Path) (h : Hash) :
    (storePathInRAM st p h).caches = st.caches ∧
    (storePathInRAM st p h).current = st.current ∧
    (storePathInRAM st p h).fileLimit = st.fileLimit ∧
    (storePathInRAM st p h).totalLimit = st.totalLimit ∧
    (storePathInRAM st p h).pathLimit = st.pathLimit ∧
    (storePathInRAM st p h).longterm = st.longterm := by
  rcases hl : alookup st.paths p with _ | pe
  · simp only [storePathInRAM, hl]
    split <;> simp
  · simp [storePathInRAM, hl]

/-- The path loop of `put` touches only `_paths` and `_pathIndex`. -/
theorem putPaths_fields (hash : Hash) (ps : List Path) :
    ∀ st : CacheState,
    (putPaths st hash ps).1.caches = st.caches ∧
    (putPaths st hash ps).1.current = st.current ∧
    (putPaths st hash ps).1.fileLimit = st.fileLimit ∧
    (putPaths st hash ps).1.totalLimit = st.totalLimit ∧
    (putPaths st hash ps).1.pathLimit = st.pathLimit ∧
    (putPaths st hash ps).1.longterm = st.longterm := by
  induction ps with
  | nil =>
    intro st
    exact ⟨rfl, rfl, rfl, rfl, rfl, rfl⟩
  | cons p ps ih =>
    intro st
    rcases hl : alookup st.paths p with _ | pe
    · have hs := storePathInRAM_fields st p hash
      have hr := ih (storePathInRAM st p hash)
      simp only [putPaths, hl]
      exact ⟨hr.1.trans hs.1, hr.2.1.trans hs.2.1, hr.2.2.1.trans hs.2.2.1,
        hr.2.2.2.1.trans hs.2.2.2.1, hr.2.2.2.2.1.trans hs.2.2.2.2.1,
        hr.2.2.2.2.2.trans hs.2.2.2.2.2⟩
    · by_cases hne : pe.hash ≠ hash
      · have hs := storePathInRAM_fields st p hash
        have hr := ih (storePathInRAM st p hash)
        simp only [putPaths, hl, if_pos hne]
        exact ⟨hr.1.trans hs.1, hr.2.1.trans hs.2.1, hr.2.2.1.trans hs.2.2.1,
          hr.2.2.2.1.trans hs.2.2.2.1, hr.2.2.2.2.1.trans hs.2.2.2.2.1,
          hr.2.2.2.2.2.trans hs.2.2.2.2.2⟩
      · have hr := ih st
        simp only [putPaths, hl, if_neg hne]
        exact hr

/-! ### The put pipeline -/

/-- Transport of the size invariant along states that agree on the fields it
mentions. -/
theorem SizeInv_of_fields {st st' : CacheState} (h1 : st'.caches = st.caches)
    (h2 : st'.current = st.current) (h3 : st'.totalLimit = st.totalLimit)
    (hinv : SizeInv st) : SizeInv st' := by
  unfold SizeInv Inv0
  rw [h1, h2, h3]
  exact hinv

theorem put_reject {env : Env} {st : CacheState} {data : Payload}
    {paths : List Path} {wait : Bool} {now : Nat}
    (hg : st.longterm = false ∧ data.length > st.fileLimit) :
    put env st data paths wait now = .error (.oversized, st) := by
  simp only [put, if_pos hg]

theorem put_run {env : Env} {st : CacheState} {data : Payload}
    {paths : List Path} {wait : Bool} {now : Nat}
    (hg : ¬ (st.longterm = false ∧ data.length > st.fileLimit)) :
    put env st data paths wait now =
      match storeCacheInRAM env.score (putPaths st (env.hashFn data) paths).1
          (env.hashFn data) data now with
      | .error stc => .error (.crash, stc)
      | .ok (inRAM, st2) =>
          .ok ⟨env.hashFn data, st2,
            (putPaths st (env.hashFn data) paths).2 ++
              (if (putPaths st (env.hashFn data) paths).1.longterm then
                match alookup (putPaths st (env.hashFn data) paths).1.caches
                    (env.hashFn data) with
                | none => [DurableWrite.writeCache (env.hashFn data) data]
                | some e =>
                    if e.data = data then
                      [DurableWrite.writeCache (env.hashFn data) data]
                    else []
              else []),
            inRAM, !wait && inRAM⟩ := by
  simp only [put, if_neg hg]

/-- `put` preserves the size invariant on every settled outcome. -/
theorem put_inv {env : Env} {st : CacheState} {data : Payload}
    {paths : List Path} {wait : Bool} {now : Nat} (hinv : SizeInv st) :
    (∀ r, put env st data paths wait now = .ok r → SizeInv r.st) ∧
    (∀ pe stc, put env st data paths wait now = .error (pe, stc) →
      SizeInv stc) := by
  by_cases hg : st.longterm = false ∧ data.length > st.fileLimit
  · rw [put_reject hg]
    constructor
    · intro r hok
      exact absurd hok (by simp)
    · intro pe stc hbad
      obtain ⟨_, rfl⟩ : PutErr.oversized = pe ∧ st = stc := by
        simpa using hbad
      exact hinv
  · rw [put_run hg]
    have hpf := putPaths_fields (env.hashFn data) paths st
    have hinv1 : SizeInv (putPaths st (env.hashFn data) paths).1 :=
      SizeInv_of_fields hpf.1 hpf.2.1 hpf.2.2.2.1 hinv
    have hsc := @storeCacheInRAM_inv env.score
      (putPaths st (env.hashFn data) paths).1 (env.hashFn data) data now hinv1
    rcases hres : storeCacheInRAM env.score (putPaths st (env.hashFn data)
        paths).1 (env.hashFn data) data now with stc1 | ⟨b, st2⟩
    · constructor
      · intro r hok
        exact absurd hok (by simp)
      · intro pe stc hbad
        simp only at hbad
        obtain ⟨_, rfl⟩ : PutErr.crash = pe ∧ stc1 = stc := by
          have := Except.error.inj hbad
          exact ⟨congrArg Prod.fst this, congrArg Prod.snd this⟩
        exact (hsc.2 stc1 hres).1
    · constructor
      · intro r hok
        simp only at hok
        obtain rfl := Except.ok.inj hok
        exact (hsc.1 b st2 hres).1
      · intro pe stc hbad
        exact absurd hbad (by simp)

/-! ### Read paths and the totalLimit setter -/

theorem SizeInv_setTime {st : CacheState} (h : Hash) (t : Nat)
    (hinv : SizeInv st) :
    SizeInv { st with caches := setTime st.caches h t } := by
  obtain ⟨⟨hsum, hnd⟩, hle⟩ := hinv
  refine ⟨⟨?_, ?_⟩, hle⟩
  · show st.current = sumSizes (setTime st.caches h t)
    rw [sumSizes_setTime]
    exact hsum
  · show ((setTime st.caches h t).map Prod.fst).Nodup
    rw [map_fst_setTime]
    exact hnd

/-- `getByHash` preserves the size invariant on every settled outcome. -/
theorem getByHash_inv {env : Env} {st : CacheState} {h : Hash} {now : Nat}
    (hinv : SizeInv st) :
    (∀ d st', getByHash env st h now = .ok (d, st') → SizeInv st') ∧
    (∀ ste, getByHash env st h now = .error ste → SizeInv ste) := by
  rcases he : alookup st.caches h with _ | e
  · simp only [getByHash, he]
    by_cases hlt : st.longterm = true
    · rw [if_pos hlt]
      rcases hd : env.dcache h with _ | data
      · constructor
        · intro d st' hok
          exact absurd hok (by simp)
        · intro ste herr
          obtain rfl := Except.error.inj herr
          exact hinv
      · have hsc := @storeCacheInRAM_inv env.score st h data now hinv
        rcases hres : storeCacheInRAM env.score st h data now with stc | ⟨b, st1⟩
        · constructor
          · intro d st' hok
            simp only at hok
            rw [hres] at hok
            exact absurd hok (by simp)
          · intro ste herr
            simp only at herr
            rw [hres] at herr
            simp only at herr
            obtain rfl := Except.error.inj herr
            exact (hsc.2 _ hres).1
        · constructor
          · intro d st' hok
            simp only at hok
            rw [hres] at hok
            simp only at hok
            have h1 := Except.ok.inj hok
            injection h1 with _ hst
            subst hst
            exact (hsc.1 _ _ hres).1
          · intro ste herr
            simp only at herr
            rw [hres] at herr
            exact absurd herr (by simp)
    · rw [if_neg hlt]
      constructor
      · intro d st' hok
        exact absurd hok (by simp)
      · intro ste herr
        obtain rfl := Except.error.inj herr
        exact hinv
  · simp only [getByHash, he]
    constructor
    · intro d st' hok
      have h1 := Except.ok.inj hok
      injection h1 with _ hst
      subst hst
      exact SizeInv_setTime h now hinv
    · intro ste herr
      exact absurd herr (by simp)

/-- `getByPath` preserves the size invariant on every settled outcome. -/
theorem getByPath_inv {env : Env} {st : CacheState} {p : Path} {now : Nat}
    (hinv : SizeInv st) :
    (∀ d st', getByPath env st p now = .ok (d, st') → SizeInv st') ∧
    (∀ ste, getByPath env st p now = .error ste → SizeInv ste) := by
  rcases hl : alookup st.paths p with _ | pe
  · simp only [getByPath, hl]
    by_cases hlt : st.longterm = true
    · rw [if_pos hlt]
      rcases hd : env.dpath p with _ | h
      · constructor
        · intro d st' hok
          exact absurd hok (by simp)
        · intro ste herr
          obtain rfl := Except.error.inj herr
          exact hinv
      · have hpf := storePathInRAM_fields st p h
        have hinv1 : SizeInv (storePathInRAM st p h) :=
          SizeInv_of_fields hpf.1 hpf.2.1 hpf.2.2.2.1 hinv
        exact getByHash_inv hinv1
    · rw [if_neg hlt]
      constructor
      · intro d st' hok
        exact absurd hok (by simp)
      · intro ste herr
        obtain rfl := Except.error.inj herr
        exact hinv
  · simp only [getByPath, hl]
    exact getByHash_inv hinv

/-- The `totalLimit` setter preserves the size invariant (it evicts down to
the new ceiling; with `size = 0` its eviction loop cannot throw). -/
theorem setTotalLimit_inv {sc : Nat → Nat → Nat} {st : CacheState}
    {n now : Nat} (hinv : SizeInv st) :
    (∀ st', setTotalLimit sc st n now = .ok st' → SizeInv st') ∧
    (∀ ste, setTotalLimit sc st n now = .error ste → SizeInv ste) := by
  have hinv0 : Inv0 { st with totalLimit := n } := hinv.1
  constructor
  · intro st' hok
    unfold setTotalLimit at hok
    obtain ⟨f1, f2, f3, f4, f5, f6, ev, hperm, hsub, hcs, hcur, hlim, _⟩ :=
      freeSpaceInRAM_ok_spec hinv0 hok
    refine ⟨⟨hcs, ?_⟩, ?_⟩
    · exact hinv.1.2.sublist (hsub.map Prod.fst)
    · rw [f2]
      omega
  · intro ste herr
    unfold setTotalLimit at herr
    obtain ⟨_, _, hlt, _⟩ := freeSpaceInRAM_error_spec hinv0 herr
    exact absurd hlt (Nat.not_lt_zero _)

/-! ### Operation sequences -/

theorem step_inv (env : Env) (st : CacheState) (op : Op) (hinv : SizeInv st) :
    SizeInv (step env st op) := by
  cases op with
  | opPut data paths wait now =>
    show SizeInv (match put env st data paths wait now with
      | .ok r => r.st
      | .error (_, stc) => stc)
    rcases hres : put env st data paths wait now with ⟨pe, stc⟩ | r
    · exact (put_inv hinv).2 pe stc hres
    · exact (put_inv hinv).1 r hres
  | opGetByHash h now =>
    show SizeInv (match getByHash env st h now with
      | .ok (_, st1) => st1
      | .error st1 => st1)
    rcases hres : getByHash env st h now with ste | ⟨d, st1⟩
    · exact (getByHash_inv hinv).2 ste hres
    · exact (getByHash_inv hinv).1 d st1 hres
  | opGetByPath p now =>
    show SizeInv (match getByPath env st p now with
      | .ok (_, st1) => st1
      | .error st1 => st1)
    rcases hres : getByPath env st p now with ste | ⟨d, st1⟩
    · exact (getByPath_inv hinv).2 ste hres
    · exact (getByPath_inv hinv).1 d st1 hres
  | opSetTotalLimit n now =>
    show SizeInv (match setTotalLimit env.score st n now with
      | .ok st1 => st1
      | .error st1 => st1)
    rcases hres : setTotalLimit env.score st n now with ste | st1
    · exact (setTotalLimit_inv hinv).2 ste hres
    · exact (setTotalLimit_inv hinv).1 st1 hres

theorem runOps_inv (env : Env) (ops : List Op) :
    ∀ st : CacheState, SizeInv st → SizeInv (runOps env st ops) := by
  induction ops with
  | nil =>
    intro st hinv
    exact hinv
  | cons op ops ih =>
    intro st hinv
    exact ih (step env st op) (step_inv env st op hinv)

theorem initState_sizeInv (fl tl pl : Nat) (lt : Bool) :
    SizeInv (initState fl tl pl lt) := by
  refine ⟨⟨rfl, List.nodup_nil⟩, Nat.zero_le _⟩

/-! ### The path sliding window -/

/-- Invariant of the `_paths` map: the stored insertion indices are exactly
the window of the `min(pathIndex, pathLimit)` most recent counter values, in
ascending order, and no path key repeats. -/
def PathInv (st : CacheState) : Prop :=
  st.paths.map (fun q => q.2.idx)
    = List.range' (st.pathIndex - min st.pathIndex st.pathLimit)
        (min st.pathIndex st.pathLimit) ∧
  (st.paths.map Prod.fst).Nodup

theorem map_idx_setPathHash (l : List (Path × PathEntry)) (p : Path)
    (h : Hash) :
    (setPathHash l p h).map (fun q => q.2.idx) = l.map (fun q => q.2.idx) := by
  induction l with
  | nil => rfl
  | cons q qs ih =>
    by_cases hq : q.1 = p <;> simp [setPathHash, hq] at ih ⊢ <;> exact ih

theorem map_fst_setPathHash (l : List (Path × PathEntry)) (p : Path)
    (h : Hash) : (setPathHash l p h).map Prod.fst = l.map Prod.fst := by
  induction l with
  | nil => rfl
  | cons q qs ih =>
    by_cases hq : q.1 = p <;> simp [setPathHash, hq] at ih ⊢ <;> exact ih

theorem alookup_setPathHash_self {l : List (Path × PathEntry)} {p : Path}
    {pe : PathEntry} (h : Hash) (hl : alookup l p = some pe) :
    alookup (setPathHash l p h) p = some ⟨pe.idx, h⟩ := by
  induction l with
  | nil => simp [alookup] at hl
  | cons q qs ih =>
    by_cases hq : q.1 = p
    · simp [alookup, hq] at hl
      simp [setPathHash, alookup, hq, hl]
    · simp [alookup, hq] at hl
      simp [setPathHash, alookup, hq]
      exact ih hl

theorem removeIdx_sublist (l : List (Path × PathEntry)) (i : Nat) :
    List.Sublist (removeIdx l i) l := by
  induction l with
  | nil => simp [removeIdx]
  | cons q qs ih =>
    by_cases hq : q.2.idx = i
    · simp [removeIdx, hq]
    · simpa [removeIdx, hq] using ih.cons₂ q

theorem removeIdx_cons_eq {q : Path × PathEntry} {qs : List (Path × PathEntry)}
    {i : Nat} (h : q.2.idx = i) : removeIdx (q :: qs) i = qs := by
  simp [removeIdx, h]

/-- Updating an existing path repoints its hash in place: the counter does not
move, the stored indices (hence the window and the count) are untouched, and
the path now maps to its old index with the new hash. -/
theorem storePathInRAM_update {st : CacheState} {path : Path} {pe : PathEntry}
    (hash : Hash) (hsome : alookup st.paths path = some pe) :
    (storePathInRAM st path hash).pathIndex = st.pathIndex ∧
    (storePathInRAM st path hash).pathLimit = st.pathLimit ∧
    alookup (storePathInRAM st path hash).paths path = some ⟨pe.idx, hash⟩ ∧
    (storePathInRAM st path hash).paths.map (fun q => q.2.idx)
      = st.paths.map (fun q => q.2.idx) ∧
    (storePathInRAM st path hash).paths.map Prod.fst
      = st.paths.map Prod.fst ∧
    (storePathInRAM st path hash).paths.length = st.paths.length := by
  have hdef : storePathInRAM st path hash =
      { st with paths := setPathHash st.paths path hash } := by
    simp only [storePathInRAM, hsome]
  rw [hdef]
  refine ⟨rfl, rfl, alookup_setPathHash_self hash hsome,
    map_idx_setPathHash _ _ _, map_fst_setPathHash _ _ _, ?_⟩
  show (setPathHash st.paths path hash).length = st.paths.length
  have := congrArg List.length (map_fst_setPathHash st.paths path hash)
  simpa using this

/-- Inserting a fresh path appends it with the next counter value; when the
new counter exceeds the window, exactly the single entry indexed
`counter - pathLimit - 1` is removed (the smallest index present), and the
window invariant is restored. -/
theorem storePathInRAM_insert {st : CacheState} {path : Path} (hash : Hash)
    (hinv : PathInv st) (hnone : alookup st.paths path = none) :
    (storePathInRAM st path hash).pathIndex = st.pathIndex + 1 ∧
    (storePathInRAM st path hash).pathLimit = st.pathLimit ∧
    PathInv (storePathInRAM st path hash) ∧
    (st.pathIndex + 1 ≤ st.pathLimit →
      (storePathInRAM st path hash).paths
        = st.paths ++ [(path, ⟨st.pathIndex, hash⟩)]) ∧
    (st.pathIndex + 1 > st.pathLimit →
      (storePathInRAM st path hash).paths.length = st.paths.length ∧
      (∀ q ∈ (storePathInRAM st path hash).paths,
        st.pathIndex + 1 - st.pathLimit - 1 < q.2.idx) ∧
      (∀ q ∈ st.paths ++ [(path, (⟨st.pathIndex, hash⟩ : PathEntry))],
        q ∉ (storePathInRAM st path hash).paths →
          q.2.idx = st.pathIndex + 1 - st.pathLimit - 1)) := by
  obtain ⟨hmap, hnd⟩ := hinv
  have hpnotin : path ∉ st.paths.map Prod.fst :=
    (alookup_eq_none st.paths path).mp hnone
  have range'_head : ∀ s L : Nat, 0 < L →
      List.range' s L = s :: List.range' (s + 1) (L - 1) := by
    intro s L hL
    obtain ⟨k, rfl⟩ : ∃ k, L = k + 1 := ⟨L - 1, by omega⟩
    rw [List.range'_succ]
    simp
  have range'_snoc : ∀ s L : Nat, 0 < L →
      List.range' s L = List.range' s (L - 1) ++ [s + (L - 1)] := by
    intro s L hL
    obtain ⟨k, rfl⟩ : ∃ k, L = k + 1 := ⟨L - 1, by omega⟩
    rw [List.range'_concat]
    simp
  have hdef0 : storePathInRAM st path hash =
      if st.pathIndex + 1 > st.pathLimit then
        { st with
          pathIndex := st.pathIndex + 1
          paths := removeIdx (st.paths ++ [(path, ⟨st.pathIndex, hash⟩)])
            (st.pathIndex + 1 - st.pathLimit - 1) }
      else
        { st with
          pathIndex := st.pathIndex + 1
          paths := st.paths ++ [(path, ⟨st.pathIndex, hash⟩)] } := by
    simp only [storePathInRAM, hnone]
  rw [hdef0]
  by_cases hC : st.pathIndex + 1 > st.pathLimit
  · rw [if_pos hC]
    have hLn : st.pathLimit ≤ st.pathIndex := by omega
    by_cases hL0 : st.pathLimit = 0
    · have hnil : st.paths = [] := by
        have : st.paths.map (fun q => q.2.idx) = [] := by
          rw [hmap, hL0]
          simp
        exact List.map_eq_nil_iff.mp this
      have harith : st.pathIndex + 1 - st.pathLimit - 1 = st.pathIndex := by
        omega
      have hrem : removeIdx (st.paths ++ [(path, ⟨st.pathIndex, hash⟩)])
          (st.pathIndex + 1 - st.pathLimit - 1) = [] := by
        rw [hnil, harith]
        exact removeIdx_cons_eq rfl
      refine ⟨rfl, rfl, ?_, fun hle => absurd hle (by omega), fun _ => ?_⟩
      · constructor
        · show (removeIdx (st.paths ++ [(path, ⟨st.pathIndex, hash⟩)])
              (st.pathIndex + 1 - st.pathLimit - 1)).map (fun q => q.2.idx)
            = List.range' (st.pathIndex + 1
                - min (st.pathIndex + 1) st.pathLimit)
                (min (st.pathIndex + 1) st.pathLimit)
          rw [hrem, hL0]
          simp
        · show ((removeIdx (st.paths ++ [(path, ⟨st.pathIndex, hash⟩)])
              (st.pathIndex + 1 - st.pathLimit - 1)).map Prod.fst).Nodup
          rw [hrem]
          exact List.nodup_nil
      · refine ⟨?_, ?_, ?_⟩
        · show (removeIdx (st.paths ++ [(path, ⟨st.pathIndex, hash⟩)])
              (st.pathIndex + 1 - st.pathLimit - 1)).length = st.paths.length
          rw [hrem, hnil]
        · intro q hq
          rw [hrem] at hq
          simp at hq
        · intro q hq hnq
          rw [hnil] at hq
          simp only [List.nil_append, List.mem_singleton] at hq
          rw [hq]
          show st.pathIndex = st.pathIndex + 1 - st.pathLimit - 1
          omega
    · have hLpos : 0 < st.pathLimit := Nat.pos_of_ne_zero hL0
      have hmin1 : min st.pathIndex st.pathLimit = st.pathLimit := by omega
      have hform : st.paths.map (fun q => q.2.idx)
          = (st.pathIndex - st.pathLimit)
            :: List.range' (st.pathIndex - st.pathLimit + 1)
                (st.pathLimit - 1) := by
        rw [hmap, hmin1]
        exact range'_head _ _ hLpos
      obtain ⟨q0, qs, hp⟩ : ∃ q0 qs, st.paths = q0 :: qs := by
        cases hpp : st.paths with
        | nil =>
          rw [hpp] at hform
          simp at hform
        | cons a b => exact ⟨a, b, rfl⟩
      rw [hp, List.map_cons] at hform
      injection hform with hq0 hqs
      have harith : st.pathIndex + 1 - st.pathLimit - 1
          = st.pathIndex - st.pathLimit := by omega
      have hpaths' : removeIdx (st.paths ++ [(path, ⟨st.pathIndex, hash⟩)])
          (st.pathIndex + 1 - st.pathLimit - 1)
          = qs ++ [(path, ⟨st.pathIndex, hash⟩)] := by
        rw [hp, harith, List.cons_append, removeIdx_cons_eq hq0]
      have hndtail : (qs.map Prod.fst).Nodup := by
        rw [hp, List.map_cons] at hnd
        exact (List.nodup_cons.mp hnd).2
      have hpnotin2 : path ∉ qs.map Prod.fst := by
        intro hc
        apply hpnotin
        rw [hp, List.map_cons]
        exact List.mem_cons_of_mem _ hc
      refine ⟨rfl, rfl, ?_, fun hle => absurd hle (by omega), fun _ => ?_⟩
      · constructor
        · show (removeIdx (st.paths ++ [(path, ⟨st.pathIndex, hash⟩)])
              (st.pathIndex + 1 - st.pathLimit - 1)).map (fun q => q.2.idx)
            = List.range' (st.pathIndex + 1
                - min (st.pathIndex + 1) st.pathLimit)
                (min (st.pathIndex + 1) st.pathLimit)
          have hmin2 : min (st.pathIndex + 1) st.pathLimit = st.pathLimit :=
            by omega
          have e1 : st.pathIndex + 1 - st.pathLimit
              = st.pathIndex - st.pathLimit + 1 := by omega
          rw [hpaths', List.map_append, hqs, hmin2, e1]
          rw [range'_snoc _ _ hLpos]
          have e2 : st.pathIndex - st.pathLimit + 1 + (st.pathLimit - 1)
              = st.pathIndex := by omega
          rw [e2]
          rfl
        · show ((removeIdx (st.paths ++ [(path, ⟨st.pathIndex, hash⟩)])
              (st.pathIndex + 1 - st.pathLimit - 1)).map Prod.fst).Nodup
          rw [hpaths', List.map_append]
          show (qs.map Prod.fst ++ [path]).Nodup
          refine (List.perm_append_singleton path _).nodup_iff.mpr ?_
          exact List.nodup_cons.mpr ⟨hpnotin2, hndtail⟩
      · refine ⟨?_, ?_, ?_⟩
        · show (removeIdx (st.paths ++ [(path, ⟨st.pathIndex, hash⟩)])
              (st.pathIndex + 1 - st.pathLimit - 1)).length = st.paths.length
          rw [hpaths', hp]
          simp
        · intro q hq
          show st.pathIndex + 1 - st.pathLimit - 1 < q.2.idx
          rw [hpaths'] at hq
          rw [harith]
          rcases List.mem_append.mp hq with h1 | h1
          · have : q.2.idx ∈ qs.map (fun q => q.2.idx) :=
              List.mem_map_of_mem _ h1
            rw [hqs] at this
            have := List.mem_range'_1.mp this
            omega
          · rw [List.mem_singleton.mp h1]
            show st.pathIndex - st.pathLimit < st.pathIndex
            omega
        · intro q hq hnq
          rw [hpaths'] at hnq
          rw [hp, List.cons_append] at hq
          rcases List.mem_cons.mp hq with h1 | h1
          · rw [h1, hq0, harith]
          · exact absurd h1 hnq
  · rw [if_neg hC]
    have hnL : st.pathIndex < st.pathLimit := by omega
    have hmin1 : min st.pathIndex st.pathLimit = st.pathIndex := by omega
    have hmin2 : min (st.pathIndex + 1) st.pathLimit = st.pathIndex + 1 := by
      omega
    refine ⟨rfl, rfl, ⟨?_, ?_⟩, fun _ => rfl, fun hgt => absurd hgt hC⟩
    · show ((st.paths ++ [(path, (⟨st.pathIndex, hash⟩ : PathEntry))]).map
          (fun q => q.2.idx))
        = List.range' (st.pathIndex + 1 - min (st.pathIndex + 1) st.pathLimit)
            (min (st.pathIndex + 1) st.pathLimit)
      rw [List.map_append, hmap, hmin1, hmin2, Nat.sub_self, Nat.sub_self,
        List.range'_concat]
      have e2 : 0 + 1 * st.pathIndex = st.pathIndex := by omega
      rw [e2]
      rfl
    · show (((st.paths
          ++ [(path, (⟨st.pathIndex, hash⟩ : PathEntry))])).map Prod.fst).Nodup
      rw [List.map_append]
      show (st.paths.map Prod.fst ++ [path]).Nodup
      refine (List.perm_append_singleton path _).nodup_iff.mpr ?_
      exact List.nodup_cons.mpr ⟨hpnotin, hnd⟩

theorem storePathInRAM_pathInv {st : CacheState} (path : Path) (hash : Hash)
    (hinv : PathInv st) : PathInv (storePathInRAM st path hash) := by
  rcases hl : alookup st.paths path with _ | pe
  · exact (storePathInRAM_insert hash hinv hl).2.2.1
  · obtain ⟨hpi, hpl, _, hidx, hfst, _⟩ := storePathInRAM_update hash hl
    obtain ⟨hmap, hnd⟩ := hinv
    constructor
    · rw [hidx, hpi, hpl]
      exact hmap
    · rw [hfst]
      exact hnd

theorem PathInv_of_fields {st st' : CacheState} (h1 : st'.paths = st.paths)
    (h2 : st'.pathIndex = st.pathIndex) (h3 : st'.pathLimit = st.pathLimit)
    (hinv : PathInv st) : PathInv st' := by
  unfold PathInv
  rw [h1, h2, h3]
  exact hinv

theorem putPaths_pathInv (hash : Hash) (ps : List Path) :
    ∀ st : CacheState, PathInv st → PathInv (putPaths st hash ps).1 := by
  induction ps with
  | nil =>
    intro st h
    exact h
  | cons p ps ih =>
    intro st h
    rcases hl : alookup st.paths p with _ | pe
    · simp only [putPaths, hl]
      exact ih _ (storePathInRAM_pathInv p hash h)
    · by_cases hne : pe.hash ≠ hash
      · simp only [putPaths, hl, if_pos hne]
        exact ih _ (storePathInRAM_pathInv p hash h)
      · simp only [putPaths, hl, if_neg hne]
        exact ih _ h

theorem put_pathInv {env : Env} {st : CacheState} {data : Payload}
    {paths : List Path} {wait : Bool} {now : Nat} (hsz : SizeInv st)
    (hinv : PathInv st) :
    (∀ r, put env st data paths wait now = .ok r → PathInv r.st) ∧
    (∀ pe stc, put env st data paths wait now = .error (pe, stc) →
      PathInv stc) := by
  by_cases hg : st.longterm = false ∧ data.length > st.fileLimit
  · rw [put_reject hg]
    constructor
    · intro r hok
      exact absurd hok (by simp)
    · intro pe stc hbad
      obtain ⟨_, rfl⟩ : PutErr.oversized = pe ∧ st = stc := by
        simpa using hbad
      exact hinv
  · rw [put_run hg]
    have hpf := putPaths_fields (env.hashFn data) paths st
    have hsz1 : SizeInv (putPaths st (env.hashFn data) paths).1 :=
      SizeInv_of_fields hpf.1 hpf.2.1 hpf.2.2.2.1 hsz
    have hinv1 : PathInv (putPaths st (env.hashFn data) paths).1 :=
      putPaths_pathInv (env.hashFn data) paths st hinv
    have hsc := @storeCacheInRAM_inv env.score
      (putPaths st (env.hashFn data) paths).1 (env.hashFn data) data now hsz1
    rcases hres : storeCacheInRAM env.score (putPaths st (env.hashFn data)
        paths).1 (env.hashFn data) data now with stc1 | ⟨b, st2⟩
    · constructor
      · intro r hok
        exact absurd hok (by simp)
      · intro pe stc hbad
        simp only at hbad
        obtain ⟨_, rfl⟩ : PutErr.crash = pe ∧ stc1 = stc := by
          have := Except.error.inj hbad
          exact ⟨congrArg Prod.fst this, congrArg Prod.snd this⟩
        obtain ⟨_, _, _, hpl, _, hpi, hpaths⟩ := hsc.2 stc1 hres
        exact PathInv_of_fields hpaths hpi hpl hinv1
    · constructor
      · intro r hok
        simp only at hok
        obtain rfl := Except.ok.inj hok
        obtain ⟨_, _, _, hpl, _, hpi, hpaths⟩ := hsc.1 b st2 hres
        exact PathInv_of_fields hpaths hpi hpl hinv1
      · intro pe stc hbad
        exact absurd hbad (by simp)

theorem getByHash_pathInv {env : Env} {st : CacheState} {h : Hash} {now : Nat}
    (hsz : SizeInv st) (hinv : PathInv st) :
    (∀ d st', getByHash env st h now = .ok (d, st') → PathInv st') ∧
    (∀ ste, getByHash env st h now = .error ste → PathInv ste) := by
  rcases he : alookup st.caches h with _ | e
  · simp only [getByHash, he]
    by_cases hlt : st.longterm = true
    · rw [if_pos hlt]
      rcases hd : env.dcache h with _ | data
      · constructor
        · intro d st' hok
          exact absurd hok (by simp)
        · intro ste herr
          obtain rfl := Except.error.inj herr
          exact hinv
      · have hsc := @storeCacheInRAM_inv env.score st h data now hsz
        rcases hres : storeCacheInRAM env.score st h data now with stc | ⟨b, st1⟩
        · constructor
          · intro d st' hok
            simp only at hok
            rw [hres] at hok
            exact absurd hok (by simp)
          · intro ste herr
            simp only at herr
            rw [hres] at herr
            simp only at herr
            obtain rfl := Except.error.inj herr
            obtain ⟨_, _, _, hpl, _, hpi, hpaths⟩ := hsc.2 _ hres
            exact PathInv_of_fields hpaths hpi hpl hinv
        · constructor
          · intro d st' hok
            simp only at hok
            rw [hres] at hok
            simp only at hok
            have h1 := Except.ok.inj hok
            injection h1 with _ hst
            subst hst
            obtain ⟨_, _, _, hpl, _, hpi, hpaths⟩ := hsc.1 _ _ hres
            exact PathInv_of_fields hpaths hpi hpl hinv
          · intro ste herr
            simp only at herr
            rw [hres] at herr
            exact absurd herr (by simp)
    · rw [if_neg hlt]
      constructor
      · intro d st' hok
        exact absurd hok (by simp)
      · intro ste herr
        obtain rfl := Except.error.inj herr
        exact hinv
  · simp only [getByHash, he]
    constructor
    · intro d st' hok
      have h1 := Except.ok.inj hok
      injection h1 with _ hst
      subst hst
      exact PathInv_of_fields rfl rfl rfl hinv
    · intro ste herr
      exact absurd herr (by simp)

theorem getByPath_pathInv {env : Env} {st : CacheState} {p : Path} {now : Nat}
    (hsz : SizeInv st) (hinv : PathInv st) :
    (∀ d st', getByPath env st p now = .ok (d, st') → PathInv st') ∧
    (∀ ste, getByPath env st p now = .error ste → PathInv ste) := by
  rcases hl : alookup st.paths p with _ | pe
  · simp only [getByPath, hl]
    by_cases hlt : st.longterm = true
    · rw [if_pos hlt]
      rcases hd : env.dpath p with _ | h
      · constructor
        · intro d st' hok
          exact absurd hok (by simp)
        · intro ste herr
          obtain rfl := Except.error.inj herr
          exact hinv
      · have hpf := storePathInRAM_fields st p h
        have hsz1 : SizeInv (storePathInRAM st p h) :=
          SizeInv_of_fields hpf.1 hpf.2.1 hpf.2.2.2.1 hsz
        exact getByHash_pathInv hsz1 (storePathInRAM_pathInv p h hinv)
    · rw [if_neg hlt]
      constructor
      · intro d st' hok
        exact absurd hok (by simp)
      · intro ste herr
        obtain rfl := Except.error.inj herr
        exact hinv
  · simp only [getByPath, hl]
    exact getByHash_pathInv hsz hinv

theorem setTotalLimit_pathInv {sc : Nat → Nat → Nat} {st : CacheState}
    {n now : Nat} (hsz : SizeInv st) (hinv : PathInv st) :
    (∀ st', setTotalLimit sc st n now = .ok st' → PathInv st') ∧
    (∀ ste, setTotalLimit sc st n now = .error ste → PathInv ste) := by
  have hinv0 : Inv0 { st with totalLimit := n } := hsz.1
  constructor
  · intro st' hok
    unfold setTotalLimit at hok
    obtain ⟨_, _, hpl, _, hpi, hpaths, _⟩ := freeSpaceInRAM_ok_spec hinv0 hok
    exact PathInv_of_fields hpaths hpi hpl hinv
  · intro ste herr
    unfold setTotalLimit at herr
    obtain ⟨_, _, hlt, _⟩ := freeSpaceInRAM_error_spec hinv0 herr
    exact absurd hlt (Nat.not_lt_zero _)

theorem step_pathInv (env : Env) (st : CacheState) (op : Op)
    (hsz : SizeInv st) (hinv : PathInv st) : PathInv (step env st op) := by
  cases op with
  | opPut data paths wait now =>
    show PathInv (match put env st data paths wait now with
      | .ok r => r.st
      | .error (_, stc) => stc)
    rcases hres : put env st data paths wait now with ⟨pe, stc⟩ | r
    · exact (put_pathInv hsz hinv).2 pe stc hres
    · exact (put_pathInv hsz hinv).1 r hres
  | opGetByHash h now =>
    show PathInv (match getByHash env st h now with
      | .ok (_, st1) => st1
      | .error st1 => st1)
    rcases hres : getByHash env st h now with ste | ⟨d, st1⟩
    · exact (getByHash_pathInv hsz hinv).2 ste hres
    · exact (getByHash_pathInv hsz hinv).1 d st1 hres
  | opGetByPath p now =>
    show PathInv (match getByPath env st p now with
      | .ok (_, st1) => st1
      | .error st1 => st1)
    rcases hres : getByPath env st p now with ste | ⟨d, st1⟩
    · exact (getByPath_pathInv hsz hinv).2 ste hres
    · exact (getByPath_pathInv hsz hinv).1 d st1 hres
  | opSetTotalLimit n now =>
    show PathInv (match setTotalLimit env.score st n now with
      | .ok st1 => st1
      | .error st1 => st1)
    rcases hres : setTotalLimit env.score st n now with ste | st1
    · exact (setTotalLimit_pathInv hsz hinv).2 ste hres
    · exact (setTotalLimit_pathInv hsz hinv).1 st1 hres

theorem runOps_pathInv (env : Env) (ops : List Op) :
    ∀ st : CacheState, SizeInv st → PathInv st →
      PathInv (runOps env st ops) := by
  induction ops with
  | nil =>
    intro st _ hinv
    exact hinv
  | cons op ops ih =>
    intro st hsz hinv
    exact ih (step env st op) (step_inv env st op hsz)
      (step_pathInv env st op hsz hinv)

theorem initState_pathInv (fl tl pl : Nat) (lt : Bool) :
    PathInv (initState fl tl pl lt) := by
  constructor
  · simp [initState]
  · exact List.nodup_nil

theorem PathInv_count {st : CacheState} (hinv : PathInv st) :
    st.paths.length ≤ st.pathLimit := by
  have hlen := congrArg List.length hinv.1
  rw [List.length_map, List.length_range'] at hlen
  omega

/-! ### Helper facts for the claim theorems -/

theorem natCeilDiv_10000 (n : Nat) :
    (((n + 9999) / 10000 : Nat) : ℤ) = ⌈(n : ℚ) / 10000⌉ := by
  have hq : (0 : ℚ) < 10000 := by norm_num
  have hdm := Nat.div_add_mod (n + 9999) 10000
  have hm : (n + 9999) % 10000 < 10000 := Nat.mod_lt _ (by norm_num)
  have h1 : n ≤ 10000 * ((n + 9999) / 10000) := by omega
  have h2 : 10000 * ((n + 9999) / 10000) ≤ n + 9999 := by omega
  have h1q : (n : ℚ) ≤ 10000 * ((n + 9999) / 10000 : Nat) := by
    exact_mod_cast h1
  have h2q : (10000 : ℚ) * ((n + 9999) / 10000 : Nat) ≤ (n : ℚ) + 9999 := by
    exact_mod_cast h2
  have hcast : ((((n + 9999) / 10000 : Nat) : ℤ) : ℚ)
      = (((n + 9999) / 10000 : Nat) : ℚ) := Int.cast_natCast _
  rw [eq_comm, Int.ceil_eq_iff]
  constructor
  · rw [lt_div_iff₀ hq, hcast]
    linarith
  · rw [div_le_iff₀ hq, hcast]
    linarith

/-! ### Claim theorems -/

/-- C1: for every sequence of completed operations (`put`, `getByHash`,
`getByPath`, `totalLimit` assignment) on a cache built by the constructor, the
tracked resident-size accumulator `_current` equals the sum of the lengths of
the resident payloads and is at most the (current) `totalLimit` after each
operation settles. -/
theorem c1_resident_size_bounded (fl tl pl : Nat) (lt : Bool) (env : Env)
    (ops : List Op) :
    (runOps env (initState fl tl pl lt) ops).current
        = sumSizes (runOps env (initState fl tl pl lt) ops).caches ∧
    sumSizes (runOps env (initState fl tl pl lt) ops).caches
        ≤ (runOps env (initState fl tl pl lt) ops).totalLimit := by
  have h := runOps_inv env ops (initState fl tl pl lt)
    (initState_sizeInv fl tl pl lt)
  exact ⟨h.1.1, h.1.1 ▸ h.2⟩

/-- C2: when an admitted payload does not fit
(`current + size > totalLimit`), `_freeSpaceInRAM` evicts a nonempty set of
resident entries each of which scores at least as high as every surviving
entry (largest scores evicted first, deterministically), decrements the
accumulator by exactly the evicted bytes, and ends with
`current + size ≤ totalLimit`; the default scoring function is
`age * ceil(size / 10000)`, which is monotone, so larger and staler entries
are evicted first. -/
theorem c2_eviction_policy :
    (∀ (sc : Nat → Nat → Nat) (st st' : CacheState) (size now : Nat),
        Inv0 st → st.current + size > st.totalLimit →
        freeSpaceInRAM sc st size now = .ok st' →
        ∃ ev, ev ≠ [] ∧ List.Perm st.caches (st'.caches ++ ev) ∧
          st.current = st'.current + sumSizes ev ∧
          st'.current + size ≤ st.totalLimit ∧
          ∀ p ∈ ev, ∀ q ∈ st'.caches, scoreE sc now q ≤ scoreE sc now p) ∧
    (∀ age size : Nat,
        (defaultScore age size : ℤ) = age * ⌈(size : ℚ) / 10000⌉) ∧
    (∀ age age' size size' : Nat, age ≤ age' → size ≤ size' →
        defaultScore age size ≤ defaultScore age' size') := by
  refine ⟨?_, ?_, ?_⟩
  · intro sc st st' size now hinv hover hok
    obtain ⟨_, _, _, _, _, _, ev, hperm, _, _, hcur, hlim, hsc⟩ :=
      freeSpaceInRAM_ok_spec hinv hok
    refine ⟨ev, ?_, hperm, hcur, hlim, hsc⟩
    intro hev
    subst hev
    rw [sumSizes_nil] at hcur
    omega
  · intro age size
    rw [defaultScore, ← natCeilDiv_10000 size]
    push_cast
    ring
  · intro age age' size size' ha hs
    exact Nat.mul_le_mul ha
      (Nat.div_le_div_right (Nat.add_le_add_right hs 9999))

/-- Concrete pre-state for the C2 and C10 witnesses: one 3-byte entry
resident, `totalLimit = 3`. -/
def wStA : CacheState := ⟨5, 3, 5, false, 0, 3, [("a", ⟨0, [7, 7, 7]⟩)], []⟩

/-- Concrete post-state for the C2 witness: everything evicted. -/
def wStB : CacheState := ⟨5, 3, 5, false, 0, 0, [], []⟩

/-- Concrete state for the C10 counterexample half: `fileLimit = 5` but
`totalLimit = 1`, empty RAM. -/
def wStC : CacheState := ⟨5, 1, 5, false, 0, 0, [], []⟩

/-- Concrete state for the C10 witness: `fileLimit = totalLimit = 5`. -/
def wStD : CacheState := ⟨5, 5, 5, false, 0, 0, [], []⟩

/-- Witness for C2: a concrete over-limit admission (a 3-byte entry resident
at `totalLimit = 3`, incoming size 1) evicts that entry. -/
theorem c2_eviction_policy_witness :
    ∃ ev, ev ≠ [] ∧ List.Perm wStA.caches (wStB.caches ++ ev) ∧
      wStA.current = wStB.current + sumSizes ev ∧
      wStB.current + 1 ≤ wStA.totalLimit ∧
      ∀ p ∈ ev, ∀ q ∈ wStB.caches,
        scoreE defaultScore 9 q ≤ scoreE defaultScore 9 p :=
  c2_eviction_policy.1 defaultScore wStA wStB 1 9
    ⟨by decide, by decide⟩ (by decide) (by rfl)

/-- C3: inserting a new path assigns the next strictly increasing insertion
index; when the resident count would exceed `pathCountLimit` the store removes
exactly the single entry indexed `counter - pathCountLimit - 1`, which is
smaller than every surviving index; updating an existing path overwrites the
hash in place, keeps its index and the counter, and evicts nothing; and along
every operation sequence from a constructed cache the resident path count
never exceeds `pathCountLimit`. -/
theorem c3_path_window :
    (∀ (st : CacheState) (path : Path) (hash : Hash) (pe : PathEntry),
        alookup st.paths path = some pe →
        (storePathInRAM st path hash).pathIndex = st.pathIndex ∧
        alookup (storePathInRAM st path hash).paths path
          = some ⟨pe.idx, hash⟩ ∧
        (storePathInRAM st path hash).paths.length = st.paths.length) ∧
    (∀ (st : CacheState) (path : Path) (hash : Hash),
        PathInv st → alookup st.paths path = none →
        (storePathInRAM st path hash).pathIndex = st.pathIndex + 1 ∧
        (storePathInRAM st path hash).paths.length ≤ st.pathLimit ∧
        (st.pathIndex + 1 ≤ st.pathLimit →
          (storePathInRAM st path hash).paths
            = st.paths ++ [(path, ⟨st.pathIndex, hash⟩)]) ∧
        (st.pathIndex + 1 > st.pathLimit →
          (storePathInRAM st path hash).paths.length = st.paths.length ∧
          (∀ q ∈ (storePathInRAM st path hash).paths,
            st.pathIndex + 1 - st.pathLimit - 1 < q.2.idx) ∧
          (∀ q ∈ st.paths ++ [(path, (⟨st.pathIndex, hash⟩ : PathEntry))],
            q ∉ (storePathInRAM st path hash).paths →
              q.2.idx = st.pathIndex + 1 - st.pathLimit - 1))) ∧
    (∀ (fl tl pl : Nat) (lt : Bool) (env : Env) (ops : List Op),
        (runOps env (initState fl tl pl lt) ops).paths.length
          ≤ (runOps env (initState fl tl pl lt) ops).pathLimit) := by
  refine ⟨?_, ?_, ?_⟩
  · intro st path hash pe hsome
    obtain ⟨hpi, _, hlook, _, _, hlen⟩ := storePathInRAM_update hash hsome
    exact ⟨hpi, hlook, hlen⟩
  · intro st path hash hinv hnone
    obtain ⟨hpi, hpl, hinv', hle, hgt⟩ := storePathInRAM_insert hash hinv hnone
    refine ⟨hpi, ?_, hle, hgt⟩
    have := PathInv_count hinv'
    rw [hpl] at this
    exact this
  · intro fl tl pl lt env ops
    exact PathInv_count (runOps_pathInv env ops (initState fl tl pl lt)
      (initState_sizeInv fl tl pl lt) (initState_pathInv fl tl pl lt))

/-- Witness for C3: updating the present path "a" keeps index 0 and evicts
nothing; inserting the fresh path "b" gets index 1. -/
theorem c3_path_window_witness :
    ((storePathInRAM ⟨5, 5, 5, false, 1, 0, [], [("a", ⟨0, "h"⟩)]⟩
        "a" "h2").pathIndex = 1 ∧
      alookup (storePathInRAM ⟨5, 5, 5, false, 1, 0, [], [("a", ⟨0, "h"⟩)]⟩
        "a" "h2").paths "a" = some ⟨0, "h2"⟩ ∧
      (storePathInRAM ⟨5, 5, 5, false, 1, 0, [], [("a", ⟨0, "h"⟩)]⟩
        "a" "h2").paths.length
        = (([("a", (⟨0, "h"⟩ : PathEntry))]) : List (Path × PathEntry)).length) ∧
    (storePathInRAM ⟨5, 5, 5, false, 1, 0, [], [("a", ⟨0, "h"⟩)]⟩
        "b" "h3").pathIndex = 2 :=
  ⟨c3_path_window.1 ⟨5, 5, 5, false, 1, 0, [], [("a", ⟨0, "h"⟩)]⟩ "a" "h2"
      ⟨0, "h"⟩ (by decide),
    (c3_path_window.2.1 ⟨5, 5, 5, false, 1, 0, [], [("a", ⟨0, "h"⟩)]⟩ "b" "h3"
      ⟨by decide, by decide⟩ (by decide)).1⟩

/-- C10: admitting a payload within both `fileLimit` and `totalLimit` never
pops a victim from an empty candidate list and terminates returning `true`;
the `totalLimit` hypothesis is necessary — with `fileLimit = 5` but
`totalLimit = 1`, a 2-byte payload drives the loop to pop from an empty list
(the thrown `TypeError`, the `.error` outcome). -/
theorem c10_admission_safe :
    (∀ (sc : Nat → Nat → Nat) (st : CacheState) (h : Hash) (d : Payload)
        (now : Nat), SizeInv st → d.length ≤ st.fileLimit →
        d.length ≤ st.totalLimit →
        ∃ st', storeCacheInRAM sc st h d now = .ok (true, st')) ∧
    storeCacheInRAM defaultScore wStC "h" [0, 0] 0 = .error wStC := by
  constructor
  · intro sc st h d now hinv hfl htl
    exact storeCacheInRAM_admit now hinv.1 (by omega) htl
  · rfl

/-- Witness for C10: a 1-byte payload with `fileLimit = totalLimit = 5` is
admitted. -/
theorem c10_admission_safe_witness :
    ∃ st', storeCacheInRAM defaultScore wStD "h" [3] 0 = .ok (true, st') :=
  c10_admission_safe.1 defaultScore wStD "h" [3] 0
    ⟨⟨by decide, by decide⟩, by decide⟩ (by decide) (by decide)

/-! ### Shape of a successful put -/

/-- A successful `put` returns the sha256 of the data as its hash, resolves
immediately iff `!wait && inRAM`, and its final state is exactly what
`_storeCacheInRAM` produced after the path stores. -/
theorem put_ok_shape {env : Env} {st : CacheState} {data : Payload}
    {paths : List Path} {wait : Bool} {now : Nat} {r : PutOk}
    (hok : put env st data paths wait now = .ok r) :
    r.hash = env.hashFn data ∧ r.immediate = (!wait && r.inRAM) ∧
    storeCacheInRAM env.score (putPaths st (env.hashFn data) paths).1
      (env.hashFn data) data now = .ok (r.inRAM, r.st) := by
  by_cases hg : st.longterm = false ∧ data.length > st.fileLimit
  · rw [put_reject hg] at hok
    exact absurd hok (by simp)
  · rw [put_run hg] at hok
    rcases hres : storeCacheInRAM env.score (putPaths st (env.hashFn data)
        paths).1 (env.hashFn data) data now with stc1 | ⟨b, st2⟩
    · rw [hres] at hok
      exact absurd hok (by simp)
    · rw [hres] at hok
      simp only at hok
      obtain rfl := Except.ok.inj hok
      exact ⟨rfl, rfl, rfl⟩

/-- A successful `put` whose payload was already resident under its hash
leaves `_current` and the set of resident hashes untouched (only the entry's
timestamp moves). -/
theorem put_resident_nogrowth {env : Env} {st : CacheState} {data : Payload}
    {paths : List Path} {wait : Bool} {now : Nat} {e : CacheEntry} {r : PutOk}
    (hres : alookup st.caches (env.hashFn data) = some e)
    (hok : put env st data paths wait now = .ok r) :
    r.st.current = st.current ∧
    r.st.caches.map Prod.fst = st.caches.map Prod.fst ∧ r.inRAM = true := by
  obtain ⟨_, _, hstore⟩ := put_ok_shape hok
  have hpf := putPaths_fields (env.hashFn data) paths st
  have hres1 : alookup (putPaths st (env.hashFn data) paths).1.caches
      (env.hashFn data) = some e := by
    rw [hpf.1]
    exact hres
  rw [storeCacheInRAM_resident data now hres1] at hstore
  have h1 := Except.ok.inj hstore
  have hb : true = r.inRAM := congrArg Prod.fst h1
  have hst : ({ (putPaths st (env.hashFn data) paths).1 with
      caches := setTime (putPaths st (env.hashFn data) paths).1.caches
        (env.hashFn data) now } : CacheState) = r.st := congrArg Prod.snd h1
  refine ⟨?_, ?_, hb.symm⟩
  · rw [← hst]
    exact hpf.2.1
  · rw [← hst]
    show (setTime (putPaths st (env.hashFn data) paths).1.caches
        (env.hashFn data) now).map Prod.fst = st.caches.map Prod.fst
    rw [map_fst_setTime, hpf.1]

/-- C4: the hash `put` returns is a pure function of the payload bytes alone
(identical bytes give identical hashes, whatever the state, paths, waiting
mode or clock); a put whose bytes are already resident under their hash adds
zero to the resident size and creates no entry; hence repeated puts of the
same bytes grow the resident size exactly once. -/
theorem c4_dedup :
    (∀ (env : Env) (st1 st2 : CacheState) (data : Payload)
        (p1 p2 : List Path) (w1 w2 : Bool) (n1 n2 : Nat) (r1 r2 : PutOk),
        put env st1 data p1 w1 n1 = .ok r1 →
        put env st2 data p2 w2 n2 = .ok r2 → r1.hash = r2.hash) ∧
    (∀ (env : Env) (st : CacheState) (data : Payload) (ps : List Path)
        (w : Bool) (n : Nat) (e : CacheEntry) (r : PutOk),
        alookup st.caches (env.hashFn data) = some e →
        put env st data ps w n = .ok r →
        r.st.current = st.current ∧
        r.st.caches.map Prod.fst = st.caches.map Prod.fst) ∧
    (∀ (env : Env) (st : CacheState) (data : Payload) (ps ps' : List Path)
        (w w' : Bool) (n n' : Nat) (r r' : PutOk), SizeInv st →
        put env st data ps w n = .ok r → r.inRAM = true →
        put env r.st data ps' w' n' = .ok r' →
        r'.st.current = r.st.current) := by
  refine ⟨?_, ?_, ?_⟩
  · intro env st1 st2 data p1 p2 w1 w2 n1 n2 r1 r2 h1 h2
    rw [(put_ok_shape h1).1, (put_ok_shape h2).1]
  · intro env st data ps w n e r hres hok
    exact ⟨(put_resident_nogrowth hres hok).1, (put_resident_nogrowth hres hok).2.1⟩
  · intro env st data ps ps' w w' n n' r r' hsz hok hram hok'
    obtain ⟨_, _, hstore⟩ := put_ok_shape hok
    rw [hram] at hstore
    have hpf := putPaths_fields (env.hashFn data) ps st
    have hsz1 : SizeInv (putPaths st (env.hashFn data) ps).1 :=
      SizeInv_of_fields hpf.1 hpf.2.1 hpf.2.2.2.1 hsz
    obtain ⟨e', hres'⟩ := storeCacheInRAM_true_resident hsz1.1 hstore
    exact (put_resident_nogrowth hres' hok').1

/-- Concrete environment for the C4-C7 witnesses: every payload hashes to
"h", the durable tier is empty, the score function is the default. -/
def wEnv : Env := ⟨fun _ => "h", fun _ => none, fun _ => none, defaultScore⟩

/-- Concrete state for the C4 witness: bytes `[1, 2]` resident under their
hash "h". -/
def c4St : CacheState := ⟨5, 5, 5, true, 0, 2, [("h", ⟨0, [1, 2]⟩)], []⟩

/-- Witness for C4: re-putting the resident bytes `[1, 2]` leaves the
accumulator and the resident key set unchanged. -/
theorem c4_dedup_witness :
    ∃ r : PutOk, put wEnv c4St [1, 2] [] false 1 = .ok r ∧
      r.st.current = c4St.current ∧
      r.st.caches.map Prod.fst = c4St.caches.map Prod.fst := by
  have hok : put wEnv c4St [1, 2] [] false 1 =
      .ok ⟨"h", ⟨5, 5, 5, true, 0, 2, [("h", ⟨1, [1, 2]⟩)], []⟩,
        [DurableWrite.writeCache "h" [1, 2]], true, true⟩ := rfl
  exact ⟨_, hok,
    c4_dedup.2.1 wEnv c4St [1, 2] [] false 1 ⟨0, [1, 2]⟩ _ (by decide) hok⟩

/-- C5: with no durable backend configured, a payload larger than
`perItemLimit` makes `put` reject with the oversized error before anything is
touched: the state (paths, caches, accumulator, counter) is returned exactly
as it was. -/
theorem c5_oversized_reject (env : Env) (st : CacheState) (data : Payload)
    (ps : List Path) (w : Bool) (n : Nat) (h1 : st.longterm = false)
    (h2 : data.length > st.fileLimit) :
    put env st data ps w n = .error (.oversized, st) :=
  put_reject ⟨h1, h2⟩

/-- Witness for C5: a 2-byte payload against `fileLimit = 1`, no durable
backend. -/
theorem c5_oversized_reject_witness :
    put wEnv ⟨1, 5, 5, false, 0, 0, [], []⟩ [0, 0] ["p"] false 0
      = .error (.oversized, ⟨1, 5, 5, false, 0, 0, [], []⟩) :=
  c5_oversized_reject wEnv ⟨1, 5, 5, false, 0, 0, [], []⟩ [0, 0] ["p"] false 0
    rfl (by decide)

/-! ### Promise settlement (C6) and durable-write scheduling (C7) -/

/-- Result of the C6 counterexample put: payload over `fileLimit` with a
durable tier, so RAM admission fails and even a non-waiting caller is routed
through `Promise.all`. -/
def c6Res : PutOk :=
  ⟨"h", ⟨1, 5, 5, true, 0, 0, [], []⟩,
    [DurableWrite.writeCache "h" [0, 0]], false, false⟩

/-- Counterexample for C6: a caller that did NOT request waiting
(`waitForLongTermIfPutInRAM = false`) still observes the durable write
failure, because its payload was not admitted to RAM: the claim that
non-waiting callers never observe `DurableWriteFailure` is false on the
code. -/
theorem c6_counterexample :
    put wEnv ⟨1, 5, 5, true, 0, 0, [], []⟩ [0, 0] [] false 0 = .ok c6Res ∧
    c6Res.immediate = false ∧
    resolvePut c6Res (fun _ => true) = .error .durableWriteFailure :=
  ⟨rfl, rfl, rfl⟩

/-- C6 (amended): `put` resolves immediately with the hash exactly when RAM
admission succeeded and the caller did not request waiting; otherwise it
settles with `Promise.all` over the scheduled durable writes, failing iff one
of them fails — so `DurableWriteFailure` reaches exactly the callers that
waited or whose payload was not admitted to RAM; a non-waiting caller whose
payload entered RAM never observes it. -/
theorem c6_promise_settlement :
    ∀ (env : Env) (st : CacheState) (data : Payload) (ps : List Path)
      (w : Bool) (n : Nat) (r : PutOk) (fails : DurableWrite → Bool),
      put env st data ps w n = .ok r →
      r.immediate = (!w && r.inRAM) ∧
      (r.immediate = true → resolvePut r fails = .ok r.hash) ∧
      (r.immediate = false →
        (r.scheduled.any fails = true →
          resolvePut r fails = .error .durableWriteFailure) ∧
        (r.scheduled.any fails = false →
          resolvePut r fails = .ok r.hash)) := by
  intro env st data ps w n r fails hok
  refine ⟨(put_ok_shape hok).2.1, ?_, ?_⟩
  · intro him
    rw [resolvePut, if_pos him]
  · intro him
    constructor
    · intro hany
      rw [resolvePut, if_neg (by rw [him]; exact Bool.false_ne_true), if_pos hany]
    · intro hany
      rw [resolvePut, if_neg (by rw [him]; exact Bool.false_ne_true),
        if_neg (by rw [hany]; exact Bool.false_ne_true)]

/-- Witness for C6 (amended): a non-waiting put that fits in RAM resolves
immediately with the hash even though its scheduled durable write fails. -/
theorem c6_promise_settlement_witness :
    resolvePut ⟨"h", ⟨5, 5, 5, true, 0, 1, [("h", ⟨0, [0]⟩)], []⟩,
        [DurableWrite.writeCache "h" [0]], true, true⟩ (fun _ => true)
      = .ok "h" :=
  (c6_promise_settlement wEnv ⟨5, 5, 5, true, 0, 0, [], []⟩ [0] [] false 0
    ⟨"h", ⟨5, 5, 5, true, 0, 1, [("h", ⟨0, [0]⟩)], []⟩,
      [DurableWrite.writeCache "h" [0]], true, true⟩
    (fun _ => true) rfl).2.1 rfl

/-- State for the C7 evaluation: the payload `[1, 2]` is already resident in
RAM under its hash "h", with identical bytes, and a durable tier is
configured. -/
def c7St : CacheState := ⟨5, 5, 5, true, 0, 2, [("h", ⟨0, [1, 2]⟩)], []⟩

/-- C7 evaluated on the code: although the payload bytes are already resident
under this hash (so, per the source's own comment, the durable write should be
saved), `put` still schedules the durable payload write — the guard
`(caches[hash]===undefined)||(Buffer.compare(...)===0)` passes when the bytes
are EQUAL, so the skip only ever fires for a mismatched-bytes hash collision. -/
theorem c7_durable_write_not_skipped :
    alookup c7St.caches (wEnv.hashFn [1, 2]) = some ⟨0, [1, 2]⟩ ∧
    put wEnv c7St [1, 2] [] false 1 =
      .ok ⟨"h", ⟨5, 5, 5, true, 0, 2, [("h", ⟨1, [1, 2]⟩)], []⟩,
        [DurableWrite.writeCache "h" [1, 2]], true, true⟩ ∧
    DurableWrite.writeCache "h" [1, 2] ∈
      (⟨"h", ⟨5, 5, 5, true, 0, 2, [("h", ⟨1, [1, 2]⟩)], []⟩,
        [DurableWrite.writeCache "h" [1, 2]], true, true⟩ : PutOk).scheduled :=
  ⟨rfl, rfl, List.mem_singleton.mpr rfl⟩

/-! ### getByHash read contract (C8) -/

/-- Environment for the C8 counterexample: the durable tier holds a 2-byte
payload for "h". -/
def c8Env : Env :=
  ⟨fun _ => "h", fun h => if h = "h" then some [0, 0] else none,
    fun _ => none, defaultScore⟩

/-- Counterexample for C8: on a RAM miss with a durable hit, `getByHash`
returns the payload but does NOT repopulate RAM when the payload exceeds
`fileLimit` (here 2 bytes against `fileLimit = 1`; this is the durable-only
regime the tests exercise with the 1200-byte file) — so "repopulates RAM" is
false as stated. -/
theorem c8_counterexample :
    getByHash c8Env ⟨1, 5, 5, true, 0, 0, [], []⟩ "h" 0
      = .ok ([0, 0], ⟨1, 5, 5, true, 0, 0, [], []⟩) ∧
    alookup (⟨1, 5, 5, true, 0, 0, [], []⟩ : CacheState).caches "h" = none :=
  ⟨rfl, rfl⟩

/-- C8 (amended): a RAM hit refreshes the entry's timestamp and returns its
payload.  A RAM miss with a durable hit splits on the payload size: within
both `fileLimit` and `totalLimit` it is returned and repopulates RAM; over
`fileLimit` it is returned without repopulating RAM; within `fileLimit` but
over `totalLimit` the admission attempt throws the eviction `TypeError`,
which the `catch (_) {}` swallows — the call fails `NotFound` with RAM
emptied, so the payload is NOT returned.  A failed durable read collapses
into `NotFound`, as does a miss with no durable backend. -/
theorem c8_read_contract :
    (∀ (env : Env) (st : CacheState) (h : Hash) (now : Nat) (e : CacheEntry),
        alookup st.caches h = some e →
        getByHash env st h now
          = .ok (e.data, { st with caches := setTime st.caches h now })) ∧
    (∀ (env : Env) (st : CacheState) (h : Hash) (now : Nat) (d : Payload),
        SizeInv st → alookup st.caches h = none → st.longterm = true →
        env.dcache h = some d → d.length ≤ st.fileLimit →
        d.length ≤ st.totalLimit →
        ∃ st', getByHash env st h now = .ok (d, st') ∧
          ∃ e', alookup st'.caches h = some e') ∧
    (∀ (env : Env) (st : CacheState) (h : Hash) (now : Nat) (d : Payload),
        alookup st.caches h = none → st.longterm = true →
        env.dcache h = some d → d.length > st.fileLimit →
        getByHash env st h now = .ok (d, st)) ∧
    (∀ (env : Env) (st : CacheState) (h : Hash) (now : Nat) (d : Payload),
        SizeInv st → alookup st.caches h = none → st.longterm = true →
        env.dcache h = some d → d.length ≤ st.fileLimit →
        d.length > st.totalLimit →
        ∃ stc, getByHash env st h now = .error stc ∧
          stc.caches = [] ∧ stc.current = 0) ∧
    (∀ (env : Env) (st : CacheState) (h : Hash) (now : Nat),
        alookup st.caches h = none → st.longterm = true →
        env.dcache h = none → getByHash env st h now = .error st) ∧
    (∀ (env : Env) (st : CacheState) (h : Hash) (now : Nat),
        alookup st.caches h = none → st.longterm = false →
        getByHash env st h now = .error st) := by
  refine ⟨?_, ?_, ?_, ?_, ?_, ?_⟩
  · intro env st h now e he
    simp only [getByHash, he]
  · intro env st h now d hsz he hlt hd hfit htl
    simp only [getByHash, he, hlt, if_pos rfl, hd]
    obtain ⟨st1, hst⟩ := storeCacheInRAM_admit now hsz.1 (by omega) htl
    rw [hst]
    exact ⟨st1, rfl, storeCacheInRAM_true_resident hsz.1 hst⟩
  · intro env st h now d he hlt hd hbig
    simp only [getByHash, he, hlt, if_pos rfl, hd]
    rw [storeCacheInRAM_miss_big now he hbig]
    simp
  · intro env st h now d hsz he hlt hd hfit htl
    simp only [getByHash, he, hlt, if_pos rfl, hd]
    rw [storeCacheInRAM_miss_fits now he (by omega)]
    rcases hfs : freeSpaceInRAM env.score st d.length now with stc | st1
    · obtain ⟨hc1, hc2, _⟩ := freeSpaceInRAM_error_spec hsz.1 hfs
      exact ⟨stc, by simp, hc1, hc2⟩
    · obtain ⟨_, _, _, _, _, _, ev, _, _, _, _, hlim, _⟩ :=
        freeSpaceInRAM_ok_spec hsz.1 hfs
      omega
  · intro env st h now he hlt hd
    simp [getByHash, he, hlt, hd]
  · intro env st h now he hlt
    simp [getByHash, he, hlt]

/-- Witness for C8 (amended): a RAM hit on a one-entry cache returns the
stored bytes and refreshes the timestamp. -/
theorem c8_read_contract_witness :
    getByHash c8Env ⟨5, 5, 5, true, 0, 2, [("h", ⟨0, [1, 2]⟩)], []⟩ "h" 9
      = .ok ([1, 2], { (⟨5, 5, 5, true, 0, 2, [("h", ⟨0, [1, 2]⟩)], []⟩ :
          CacheState) with
          caches := setTime [("h", ⟨0, [1, 2]⟩)] "h" 9 }) :=
  c8_read_contract.1 c8Env ⟨5, 5, 5, true, 0, 2, [("h", ⟨0, [1, 2]⟩)], []⟩
    "h" 9 ⟨0, [1, 2]⟩ (by decide)

/-! ### Path deletion (C9) -/

/-- C9 (spec-modelled): `deleteByPathStart` removes exactly the PathEntries
whose path starts with the given string — from RAM and, when a durable
backend is configured, from the durable tier — and touches no ContentEntry;
`deleteByPath` removes exactly the named path. -/
theorem c9_delete_by_path_start :
    (∀ (st : CacheState) (dur : Durable) (pre : String)
        (q : Path × PathEntry),
        q ∈ (deleteByPathStart st dur pre).1.paths ↔
          q ∈ st.paths ∧ q.1.startsWith pre = false) ∧
    (∀ (st : CacheState) (dur : Durable) (pre : String),
        (deleteByPathStart st dur pre).1.caches = st.caches ∧
        (deleteByPathStart st dur pre).2.dcaches = dur.dcaches) ∧
    (∀ (st : CacheState) (dur : Durable) (pre : String) (q : Path × Hash),
        st.longterm = true →
        (q ∈ (deleteByPathStart st dur pre).2.dpaths ↔
          q ∈ dur.dpaths ∧ q.1.startsWith pre = false)) ∧
    (∀ (st : CacheState) (dur : Durable) (path : Path)
        (q : Path × PathEntry),
        q ∈ (deleteByPath st dur path).1.paths ↔
          q ∈ st.paths ∧ q.1 ≠ path) := by
  refine ⟨?_, ?_, ?_, ?_⟩
  · intro st dur pre q
    show q ∈ st.paths.filter (fun q => !(q.1.startsWith pre)) ↔ _
    rw [List.mem_filter]
    simp
  · intro st dur pre
    refine ⟨rfl, ?_⟩
    show (if st.longterm then
        { dur with dpaths := dur.dpaths.filter fun q => !(q.1.startsWith pre) }
      else dur).dcaches = dur.dcaches
    by_cases hlt : st.longterm = true
    · rw [if_pos hlt]
    · rw [if_neg (by rw [Bool.not_eq_true] at hlt; rw [hlt]; exact
        Bool.false_ne_true)]
  · intro st dur pre q hlt
    show q ∈ (if st.longterm then
        { dur with dpaths := dur.dpaths.filter fun q => !(q.1.startsWith pre) }
      else dur).dpaths ↔ _
    rw [if_pos hlt]
    show q ∈ dur.dpaths.filter (fun q => !(q.1.startsWith pre)) ↔ _
    rw [List.mem_filter]
    simp
  · intro st dur path q
    show q ∈ st.paths.filter (fun q => !(q.1 = path : Bool)) ↔ _
    rw [List.mem_filter]
    simp

/-- Witness for C9: deleting the prefix "test/5" keeps "a" and "test/4",
removes "test/56" and "test/59", from RAM and the durable tier alike. -/
theorem c9_delete_by_path_start_witness :
    (("test/56", (⟨1, "h"⟩ : PathEntry)) ∈
        (deleteByPathStart
          ⟨5, 5, 5, true, 4, 0, [],
            [("a", ⟨0, "h"⟩), ("test/56", ⟨1, "h"⟩), ("test/59", ⟨2, "h"⟩),
              ("test/4", ⟨3, "h"⟩)]⟩
          ⟨[("a", "h"), ("test/56", "h")], [("h", [1])]⟩ "test/5").1.paths
      ↔ ("test/56", (⟨1, "h"⟩ : PathEntry)) ∈
          ([("a", ⟨0, "h"⟩), ("test/56", ⟨1, "h"⟩), ("test/59", ⟨2, "h"⟩),
            ("test/4", ⟨3, "h"⟩)] : List (Path × PathEntry)) ∧
        ("test/56" : String).startsWith "test/5" = false) ∧
    (("test/56", "h") ∈
        (deleteByPathStart
          ⟨5, 5, 5, true, 4, 0, [],
            [("a", ⟨0, "h"⟩), ("test/56", ⟨1, "h"⟩), ("test/59", ⟨2, "h"⟩),
              ("test/4", ⟨3, "h"⟩)]⟩
          ⟨[("a", "h"), ("test/56", "h")], [("h", [1])]⟩ "test/5").2.dpaths
      ↔ ("test/56", "h") ∈ ([("a", "h"), ("test/56", "h")] :
            List (Path × Hash)) ∧
        ("test/56" : String).startsWith "test/5" = false) :=
  ⟨c9_delete_by_path_start.1
      ⟨5, 5, 5, true, 4, 0, [],
        [("a", ⟨0, "h"⟩), ("test/56", ⟨1, "h"⟩), ("test/59", ⟨2, "h"⟩),
          ("test/4", ⟨3, "h"⟩)]⟩
      ⟨[("a", "h"), ("test/56", "h")], [("h", [1])]⟩ "test/5"
      ("test/56", ⟨1, "h"⟩),
    c9_delete_by_path_start.2.2.1
      ⟨5, 5, 5, true, 4, 0, [],
        [("a", ⟨0, "h"⟩), ("test/56", ⟨1, "h"⟩), ("test/59", ⟨2, "h"⟩),
          ("test/4", ⟨3, "h"⟩)]⟩
      ⟨[("a", "h"), ("test/56", "h")], [("h", [1])]⟩ "test/5"
      ("test/56", "h") rfl⟩

end Permacache
